import Mathlib

/-!
# svlib: a shallow embedding of `scialla/svlib.h`

A `std::string_view` is embedded as the list of characters it denotes.  Values of
type `size_t` are natural numbers below `2 ^ 64`; every addition and subtraction
the source performs on them is reduced modulo `2 ^ 64` here.  The two standard
library calls that can fail (`substr`, `from_chars`) and the call of a moved-from
predicate carry their failure explicitly, and the `while` loop of `splitf` is driven by a
fuel counter.
-/

set_option autoImplicit false

namespace svlib

/-! ## Data model -/

/-- A borrowed view: the characters it denotes, in order. -/
abbrev View := List Char

/-- `std::string_view::npos`, the largest `size_t`. -/
def npos : Nat := 2 ^ 64 - 1

/-- Largest size a view can have (`PTRDIFF_MAX`). -/
def max_size : Nat := 2 ^ 63 - 1

/-- Addition on `size_t`. -/
def wadd (a b : Nat) : Nat := (a + b) % 2 ^ 64

/-- Subtraction on `size_t` (both operands below `2 ^ 64`). -/
def wsub (a b : Nat) : Nat := (a + 2 ^ 64 - b) % 2 ^ 64

/-- How a run of the embedded code can stop without a value: `substr` threw
`std::out_of_range`, the fuel given to a loop ran out before the loop ended, or a callable
that holds no target was called and threw `std::bad_function_call`. -/
inductive Fault where
  | out_of_range
  | out_of_fuel
  | bad_function_call
  deriving DecidableEq, Repr

/-- The literal delimiter forms: a single `char`, or a character set given as
`const char*` / `std::string_view`. -/
inductive Delim where
  | chr (c : Char)
  | set (cs : View)
  deriving DecidableEq, Repr

/-- Whether a character is matched by a literal delimiter. -/
def Delim.isMatch : Delim → Char → Bool
  | .chr c, x => x == c
  | .set cs, x => cs.contains x

/-! ## Standard library operations used by the source -/

/-- The member `std::string_view::substr(pos, n)`: throws when `pos > size()`, else the
range `[pos, pos + min(n, size() - pos))`. -/
def substr (s : View) (pos n : Nat) : Except Fault View :=
  if pos > s.length then .error .out_of_range
  else .ok ((s.drop pos).take (min n (s.length - pos)))

/-- The member `std::string_view::find_first_of(d, pos)`: the first index `i >= pos` whose
character is matched by `d`, or `npos`. -/
def find_first_of (s : View) (d : Delim) (pos : Nat) : Nat :=
  let r := s.drop pos
  let i := r.findIdx d.isMatch
  if i < r.length then pos + i else npos

/-! ## Split filters -/

namespace split_filters

/-- `keep_empties_t::operator()`. -/
def keep_empties (_token : View) : Bool := true

/-- `ignore_empties_t::operator()`. -/
def ignore_empties (token : View) : Bool := !token.isEmpty

end split_filters

/-! ## Delimiter specifications accepted by `splitf` -/

/-- The delimiter argument of `splitf`, together with the state it carries across
the calls of one pass: a literal delimiter, or one of the two range predicates of
`split_predicates`. -/
inductive DelimOrPred where
  | lit (d : Delim)
  | max_length (m_maxLen : Nat)
  | max_splits (m_maxSplits : Nat) (m_delimiters : View)
  deriving DecidableEq, Repr

namespace split_predicates

/-- `max_length::operator()`. -/
def max_length_call (m_maxLen : Nat) (_str : View) (startPos : Nat) : Nat × Nat :=
  (wadd startPos m_maxLen, wadd startPos m_maxLen)

/-- `max_splits::operator()`: returns the pair and the updated `m_maxSplits`. -/
def max_splits_call (m_maxSplits : Nat) (m_delimiters : View) (sv : View) (startPos : Nat) :
    (Nat × Nat) × Nat :=
  if m_maxSplits = 0 then ((npos, npos), m_maxSplits)
  else
    let pos := find_first_of sv (.set m_delimiters) startPos
    ((pos, wadd pos 1), m_maxSplits - 1)

end split_predicates

/-- `FnTraits::find_first_of_from`: the pair `(pos, next)` and the delimiter object
after the call. -/
def find_first_of_from (sv : View) (delimOrPred : DelimOrPred) (start : Nat) :
    (Nat × Nat) × DelimOrPred :=
  match delimOrPred with
  | .lit d =>
    let pos := find_first_of sv d start
    ((pos, if pos ≠ npos then wadd pos 1 else pos), .lit d)
  | .max_length n => (split_predicates.max_length_call n sv start, .max_length n)
  | .max_splits k ds =>
    let r := split_predicates.max_splits_call k ds sv start
    (r.1, .max_splits r.2 ds)

/-! ## The tokenization engine -/

/-- Offer a token to the filter and, when accepted, to the consumer. -/
def emit {γ : Type} (filter : View → Bool) (consumer : γ → View → γ) (acc : γ) (token : View) : γ :=
  if filter token then consumer acc token else acc

/-- The `while` loop of `splitf` and the trailing token after it.  The arguments are
the local variables `start`, `pos`, `next`, the delimiter object and the state of the
consumer; one unit of fuel is spent per loop turn. -/
def splitf_loop {γ : Type} (str : View) (consumer : γ → View → γ) (filter : View → Bool) :
    Nat → DelimOrPred → Nat → Nat → Nat → γ → Except Fault γ
  | fuel, delimOrPred, start, pos, next, acc =>
    if pos ≠ npos ∧ pos < str.length then
      match fuel with
      | 0 => .error .out_of_fuel
      | fuel + 1 =>
        match substr str start (wsub pos start) with
        | .error e => .error e
        | .ok token =>
          let acc1 := emit filter consumer acc token
          let r := find_first_of_from str delimOrPred next
          splitf_loop str consumer filter fuel r.2 next r.1.1 r.1.2 acc1
    else if start ≤ str.length then
      match substr str start (wsub str.length start) with
      | .error e => .error e
      | .ok token => .ok (emit filter consumer acc token)
    else .ok acc

/-- The function `splitf(str, delimOrPred, consumer, filter)`; `init` is the state of the
consumer before the call and the result is its state after. -/
def splitf {γ : Type} (fuel : Nat) (str : View) (delimOrPred : DelimOrPred)
    (consumer : γ → View → γ) (init : γ) (filter : View → Bool) : Except Fault γ :=
  let r := find_first_of_from str delimOrPred 0
  splitf_loop str consumer filter fuel r.2 0 r.1.1 r.1.2 init

/-- The function `split(str, delimOrPred, filter)`: the consumer appends to a vector. -/
def split (fuel : Nat) (str : View) (delimOrPred : DelimOrPred) (filter : View → Bool) :
    Except Fault (List View) :=
  splitf fuel str delimOrPred (fun res token => res ++ [token]) [] filter


/-! ## View primitives -/

/-- The function `mid(str, iFirst, nCount)`. -/
def mid (str : View) (iFirst nCount : Nat) : Except Fault View :=
  let iFirst := if iFirst > str.length then str.length else iFirst
  let nCount := if wadd iFirst nCount > str.length then wsub str.length iFirst else nCount
  let nCount := if iFirst > str.length then 0 else nCount
  if iFirst = 0 ∧ wadd iFirst nCount = str.length then .ok str
  else substr str iFirst nCount

/-! ## Typed parse -/

/-- The values of `std::errc` that `std::from_chars` reports; `ok` is `std::errc{}`. -/
inductive Errc where
  | ok
  | invalid_argument
  | result_out_of_range
  deriving DecidableEq, Repr

/-- A `std::from_chars_result` (`ptr` as an offset from `first`) together with the number
stored through the `value` reference.  Nothing is stored unless `ec` is `ok`; the callers
read `value` only then, and the field is 0 otherwise. -/
structure from_chars_result where
  ptr : Nat
  ec : Errc
  value : Int
  deriving DecidableEq, Repr

/-- Smallest `int`. -/
def INT_MIN : Int := -(2 ^ 31)

/-- Largest `int`. -/
def INT_MAX : Int := 2 ^ 31 - 1

/-- The call `std::from_chars(first, last, value)` for `int` in base 10: the longest match
of an optional `'-'` followed by decimal digits is taken from the start; without a digit
the result is `invalid_argument` at `first`; a match whose number does not fit `int` is
`result_out_of_range` past the match; otherwise the number is stored. -/
def from_chars (s : View) : from_chars_result :=
  let neg : Bool := s.head? == some '-'
  let body := if neg then s.tail else s
  let digits := body.takeWhile Char.isDigit
  if digits.isEmpty then ⟨0, .invalid_argument, 0⟩
  else
    let n : Nat := digits.foldl (fun a c => 10 * a + (c.toNat - '0'.toNat)) 0
    let x : Int := if neg then -(n : Int) else (n : Int)
    let ptr := (if neg then 1 else 0) + digits.length
    if INT_MIN ≤ x ∧ x ≤ INT_MAX then ⟨ptr, .ok, x⟩ else ⟨ptr, .result_out_of_range, 0⟩

/-- The function `try_parse<int>(str)`. -/
def try_parse (str : View) : Option Int :=
  let res := from_chars str
  if res.ec = .ok then some res.value else none

/-- The function `try_consume_as<int>(str)`: the returned optional and the caller's view
after the call. -/
def try_consume_as (str : View) : Option Int × View :=
  let res := from_chars str
  if res.ec = .ok then (some res.value, str.drop res.ptr) else (none, str)

/-! ## Delimiter abstraction of the trim, span and consume family -/

/-- The delimiter argument of the trim, span and consume functions: a literal delimiter,
or a predicate `char → bool`, the shape for which `IsSplitPredicate` holds. -/
inductive CharDelim where
  | lit (d : Delim)
  | pred (f : Char → Bool)

/-- Whether a character is matched by a delimiter of either shape. -/
def CharDelim.isMatch : CharDelim → Char → Bool
  | .lit d, x => d.isMatch x
  | .pred f, x => f x

/-- The member `std::string_view::find_first_not_of(d)`: the first index whose character is
not matched by `d`, or `npos`. -/
def find_first_not_of (s : View) (d : Delim) : Nat :=
  let i := s.findIdx (fun c => !d.isMatch c)
  if i < s.length then i else npos

/-- The member `std::string_view::find_last_not_of(d)`: the last index whose character is
not matched by `d`, or `npos`. -/
def find_last_not_of (s : View) (d : Delim) : Nat :=
  let j := s.reverse.findIdx (fun c => !d.isMatch c)
  if j < s.length then s.length - 1 - j else npos

namespace FnTraits

/-- `FnTraits::find_last_not_of`.  In the predicate branch `std::find_if` runs over the
reversed view, `base()` of the iterator it returns lies `size - j` past `begin`, and the
`- 1` is converted to `size_t`. -/
def find_last_not_of (sv : View) : CharDelim → Nat
  | .pred f => wsub (sv.length - sv.reverse.findIdx (fun c => !f c)) 1
  | .lit d => svlib.find_last_not_of sv d

/-- `FnTraits::find_first_not_of`. -/
def find_first_not_of (sv : View) : CharDelim → Nat
  | .pred f => sv.findIdx (fun c => !f c)
  | .lit d => svlib.find_first_not_of sv d

/-- `FnTraits::find_first_of`. -/
def find_first_of (sv : View) : CharDelim → Nat
  | .pred f => sv.findIdx f
  | .lit d => svlib.find_first_of sv d 0

end FnTraits

/-! ## Trim, span and consume -/

/-- The function `trim_right(str, delimOrPred)`; `remove_suffix(n)` keeps the first
`size - n` characters. -/
def trim_right (str : View) (delimOrPred : CharDelim) : View :=
  let lastGood := FnTraits.find_last_not_of str delimOrPred
  if lastGood ≠ npos then str.take (str.length - wsub (wsub str.length lastGood) 1)
  else []

/-- The function `trim_left(str, delimOrPred)`; `remove_prefix(n)` drops the first `n`
characters. -/
def trim_left (str : View) (delimOrPred : CharDelim) : View :=
  str.drop (min (FnTraits.find_first_not_of str delimOrPred) str.length)

/-- A delimiter as `trim` holds it: a parameter taken by value and handed on with
`std::forward` twice, first to `trim_left`, which takes it by value and so moves from it,
then to `trim_right`, which receives the moved-from object.  Moving a `char`, a
`const char*` or a `std::string_view` copies it.  A predicate is a callable `f` together
with what a move leaves behind: `some g` when the moved-from object is the callable `g`
(`g` is `f` when moving copies, as for a function pointer or a lambda without captures;
a lambda that owns a `std::string` keeps an empty one), `none` when calling the moved-from
object throws `std::bad_function_call` (a `std::function`, left empty). -/
inductive ByValueDelim where
  | lit (d : Delim)
  | pred (f : Char → Bool) (moved : Option (Char → Bool))

/-- The function `trim(str, delimOrPred)`.  With a moved-from predicate that cannot be
called, `trim_right` throws at its first call of it; over an empty view `std::find_if`
makes no call, `lastGood` is `npos` and the empty view is returned. -/
def trim (str : View) : ByValueDelim → Except Fault View
  | .lit d => .ok (trim_right (trim_left str (.lit d)) (.lit d))
  | .pred f (some g) => .ok (trim_right (trim_left str (.pred f)) (.pred g))
  | .pred f none =>
    if (trim_left str (.pred f)).isEmpty then .ok []
    else .error .bad_function_call

/-- The function `right(str, nCount)`. -/
def right (str : View) (nCount : Nat) : Except Fault View :=
  let nLength := str.length
  if nCount ≥ nLength then .ok str
  else substr str (wsub nLength nCount) nCount

/-- The function `left(str, nCount)`. -/
def left (str : View) (nCount : Nat) : Except Fault View :=
  if nCount ≥ str.length then .ok str else substr str 0 nCount

/-- The function `span_excluding(str, delimOrPred)`. -/
def span_excluding (str : View) (delimOrPred : CharDelim) : Except Fault View :=
  substr str 0 (FnTraits.find_first_of str delimOrPred)

/-- The function `span_including(str, delimOrPred)`. -/
def span_including (str : View) (delimOrPred : CharDelim) : Except Fault View :=
  substr str 0 (FnTraits.find_first_not_of str delimOrPred)

/-- The function `consume_left(str, nCount)`: the returned view and the caller's view after
the call. -/
def consume_left (str : View) (nCount : Nat) : Except Fault (View × View) :=
  match left str nCount with
  | .error e => .error e
  | .ok firstN => .ok (firstN, str.drop (min str.length nCount))

/-- The four-iterator `std::equal(first1, last1, first2, last2)`: false when the two ranges
differ in length, else whether they agree element by element. -/
def std_equal : View → View → Bool
  | [], [] => true
  | a :: r1, b :: r2 => a == b && std_equal r1 r2
  | _, _ => false

/-- The function `ends_with(str, suffix)`; `rbegin()`/`rend()` run over the reversed
view. -/
def ends_with (str suffix : View) : Bool :=
  decide (suffix.length ≤ str.length) && std_equal suffix.reverse str.reverse

/-- The call `std::search(first, last, s_first, s_last)`, as the offset from `first` of the
iterator it returns: the start of the first occurrence of the second range in the first
one (`first` itself when the second range is empty), or `last` when there is none. -/
def std_search : View → View → Nat
  | [], _ => 0
  | c :: rest, what => if what.isPrefixOf (c :: rest) then 0 else 1 + std_search rest what

/-- The function `search(str, what)`; the iterator is given as its offset from
`begin(str)`. -/
def search (str what : View) : Nat := std_search str what

/-- The function `contains(str, what)`; `end(str)` is the offset `size`. -/
def contains (str what : View) : Bool := std_search str what != str.length

/-! ## Case-insensitive comparator -/

/-- The C runtime function `_memicmp(buffer1, buffer2, count)` in the "C" locale: the first
`count` bytes of the two buffers are compared after ASCII lower-casing, as unsigned
values; the result is negative, zero or positive.  It is never asked for more bytes than
both buffers hold. -/
def _memicmp : View → View → Nat → Int
  | c1 :: r1, c2 :: r2, n + 1 =>
    if c1.toLower.toNat = c2.toLower.toNat then _memicmp r1 r2 n
    else (c1.toLower.toNat : Int) - (c2.toLower.toNat : Int)
  | _, _, _ => 0

/-- The view/view overload of `less_ci::operator()` for `char` (`sizeof(CharT)` is 1). -/
def less_ci (first second : View) : Bool :=
  let cmp := _memicmp first second (1 * min first.length second.length)
  if cmp = 0 then decide (first.length < second.length) else decide (cmp < 0)

/-! ## Vocabulary of the statements -/

/-- The strict decimal integer grammar: an optional `'-'`, then one or more digits. -/
def isIntLiteral (p : View) : Bool :=
  if p.head? = some '-' then !p.tail.isEmpty && p.tail.all Char.isDigit
  else !p.isEmpty && p.all Char.isDigit

/-- The number a digit string denotes in base 10, first digit most significant. -/
def digitsValue (ds : List Char) : Nat :=
  Nat.ofDigits 10 ((ds.map (fun c => c.toNat - 48)).reverse)

/-- The integer a literal of the grammar denotes. -/
def literalValue (p : View) : Int :=
  if p.head? = some '-' then -(digitsValue p.tail : Int) else (digitsValue p : Int)

/-- Whether an integer fits the type `int`. -/
def inIntRange (x : Int) : Prop := -(2 ^ 31) ≤ x ∧ x ≤ 2 ^ 31 - 1

instance (x : Int) : Decidable (inIntRange x) := by unfold inIntRange; infer_instance

/-- The result of `from_chars` for a match of `len` characters that denotes `x`. -/
def from_chars_outcome (len : Nat) (x : Int) : from_chars_result :=
  if inIntRange x then ⟨len, .ok, x⟩ else ⟨len, .result_out_of_range, 0⟩

/-- The literal `p` is the longest prefix of `s` that belongs to the grammar. -/
def LongestLiteral (s p : View) : Prop :=
  isIntLiteral p = true ∧ (∃ r, s = p ++ r) ∧
    ∀ q r, s = q ++ r → isIntLiteral q = true → q.length ≤ p.length

/-- The view `t0 ++ [d1] ++ t1 ++ ... ++ [dn] ++ tn` rebuilt from tokens `t0 .. tn` and the
delimiter characters `d1 .. dn` between them. -/
def interleave : List View → List Char → View
  | [], _ => []
  | t :: _, [] => t
  | t :: ts, d :: ds => t ++ d :: interleave ts ds

/-- What is left of a list after its first `j` elements matched by `p`, each dropped
together with everything before it. -/
def afterDelims (p : Char → Bool) : Nat → List Char → List Char
  | 0, l => l
  | j + 1, l => afterDelims p j (l.drop (l.findIdx p + 1))

/-- The view `t` is `v` without its ends matched by `m`: `v = a ++ t ++ b` where `a` and
`b` hold matched characters only, and `t` is empty or begins and ends with a character
that is not matched. -/
def IsTrimmed (m : Char → Bool) (v t : View) : Prop :=
  ∃ a b : View, v = a ++ t ++ b ∧
    (∀ c ∈ a, m c = true) ∧ (∀ c ∈ b, m c = true) ∧
    (∀ c, t.head? = some c → m c = false) ∧ (∀ c, t.getLast? = some c → m c = false)

/-- The key `less_ci` orders views by: the lower-cased byte values. -/
def ciKey (v : View) : List Nat := v.map (fun c => c.toLower.toNat)

/-- The heads of the loop of `splitf`: the delimiter object and the value of `start` with
which `find_first_of_from` is called.  The first call is made at `start = 0` with the
delimiter as it was passed; after a call whose match is in range the loop body runs, and
the next call is made at `start = next` with the delimiter object as that call left it. -/
inductive LoopHead (str : View) (delimOrPred : DelimOrPred) : DelimOrPred → Nat → Prop where
  | entry : LoopHead str delimOrPred delimOrPred 0
  | turn {d : DelimOrPred} {start : Nat} :
      LoopHead str delimOrPred d start →
      (find_first_of_from str d start).1.1 ≠ npos →
      (find_first_of_from str d start).1.1 < str.length →
      LoopHead str delimOrPred (find_first_of_from str d start).2
        (find_first_of_from str d start).1.2

/-! ## Auxiliary facts -/

theorem wadd_of_lt {a b : Nat} (h : a + b < 2 ^ 64) : wadd a b = a + b := by
  unfold wadd; exact Nat.mod_eq_of_lt h

theorem wsub_of_le {a b : Nat} (hb : b ≤ a) (ha : a < 2 ^ 64) : wsub a b = a - b := by
  unfold wsub
  have : a + 2 ^ 64 - b = (a - b) + 2 ^ 64 := by omega
  rw [this, Nat.add_mod_right]
  exact Nat.mod_eq_of_lt (by omega)

theorem substr_of_le (s : View) {pos : Nat} (n : Nat) (h : pos ≤ s.length) :
    substr s pos n = .ok ((s.drop pos).take n) := by
  unfold substr
  rw [if_neg (by omega)]
  congr 1
  by_cases hn : n ≤ s.length - pos
  · rw [Nat.min_eq_left hn]
  · rw [Nat.min_eq_right (by omega), List.take_of_length_le (by simp),
      List.take_of_length_le (by simp; omega)]

theorem substr_rest (s : View) {pos : Nat} (h : pos ≤ s.length) :
    substr s pos (s.length - pos) = .ok (s.drop pos) := by
  rw [substr_of_le s _ h]
  congr 1
  apply List.take_of_length_le
  simp

/-- A list with a match splits at its first match. -/
theorem findIdx_split (p : Char → Bool) (l : List Char) (h : l.findIdx p < l.length) :
    ∃ c, p c = true ∧ l = l.take (l.findIdx p) ++ c :: l.drop (l.findIdx p + 1) := by
  refine ⟨l[l.findIdx p], List.findIdx_getElem, ?_⟩
  rw [← List.drop_eq_getElem_cons h, List.take_append_drop]

theorem no_match_before (p : Char → Bool) (l : List Char) :
    ∀ x ∈ l.take (l.findIdx p), ¬ p x = true := by
  intro x hx hp
  have hf : p x = false := List.false_of_mem_take_findIdx hx
  rw [hf] at hp
  exact Bool.noConfusion hp

theorem no_match_of_findIdx (p : Char → Bool) (l : List Char) (h : ¬ l.findIdx p < l.length) :
    ∀ x ∈ l, ¬ p x = true := by
  have h1 : l.findIdx p = l.length := le_antisymm (List.findIdx_le_length p) (by omega)
  have := List.findIdx_eq_length.mp h1
  intro x hx
  simp [this x hx]

theorem find_first_of_found (s : View) (d : Delim) (start : Nat)
    (h : (s.drop start).findIdx d.isMatch < (s.drop start).length) :
    find_first_of s d start = start + (s.drop start).findIdx d.isMatch := by
  simp only [find_first_of, h, if_true]

theorem find_first_of_none (s : View) (d : Delim) (start : Nat)
    (h : ¬ (s.drop start).findIdx d.isMatch < (s.drop start).length) :
    find_first_of s d start = npos := by
  simp only [find_first_of, h, if_false]

/-- With a literal delimiter the loop of `splitf`, entered at `start`, offers exactly the
pieces of the rest of the view cut at every matching character. -/
theorem splitf_loop_lit {γ : Type} (str : View) (consumer : γ → View → γ) (filter : View → Bool)
    (d : Delim) (hlen : str.length ≤ max_size) :
    ∀ (fuel start : Nat) (acc : γ), start ≤ str.length → str.length - start < fuel →
      splitf_loop str consumer filter fuel (.lit d) start
          (find_first_of_from str (.lit d) start).1.1
          (find_first_of_from str (.lit d) start).1.2 acc
        = .ok (((str.drop start).splitOnP d.isMatch).foldl (emit filter consumer) acc) := by
  have hmax : str.length < 2 ^ 63 := by unfold max_size at hlen; omega
  intro fuel
  induction fuel with
  | zero => intro start acc _ hf; omega
  | succ n ih =>
    intro start acc hs hf
    by_cases hfound : (str.drop start).findIdx d.isMatch < (str.drop start).length
    · obtain ⟨c, hc, hsplit⟩ := findIdx_split d.isMatch (str.drop start) hfound
      have hpos := find_first_of_found str d start hfound
      have hi : start + (str.drop start).findIdx d.isMatch < str.length := by
        rw [List.length_drop] at hfound; omega
      have htoks := List.splitOnP_first d.isMatch _ (no_match_before d.isMatch (str.drop start))
        c hc ((str.drop start).drop ((str.drop start).findIdx d.isMatch + 1))
      rw [← hsplit, List.drop_drop, ← Nat.add_assoc] at htoks
      generalize (str.drop start).findIdx d.isMatch = i at *
      have hne : start + i ≠ npos := by unfold npos; omega
      rw [splitf_loop]
      simp only [find_first_of_from, hpos, hne, hi, ne_eq, not_false_eq_true, and_self, if_true]
      rw [wsub_of_le (by omega) (by omega), wadd_of_lt (by omega), Nat.add_sub_cancel_left,
        substr_of_le str i hs]
      have := ih (start + i + 1) (emit filter consumer acc (List.take i (List.drop start str)))
        (by omega) (by omega)
      simp only [find_first_of_from, ne_eq] at this
      simp only [this, htoks, List.foldl_cons]
    · have hpos := find_first_of_none str d start hfound
      have htoks := List.splitOnP_eq_single d.isMatch _ (no_match_of_findIdx d.isMatch _ hfound)
      rw [splitf_loop]
      simp only [find_first_of_from, hpos, ne_eq, not_true_eq_false, false_and, if_false, hs,
        if_true]
      rw [wsub_of_le hs (by omega), substr_rest str hs, htoks]
      rfl

theorem splitf_lit {γ : Type} (fuel : Nat) (str : View) (d : Delim) (consumer : γ → View → γ)
    (init : γ) (filter : View → Bool) (hlen : str.length ≤ max_size) (hfuel : str.length < fuel) :
    splitf fuel str (.lit d) consumer init filter
      = .ok ((str.splitOnP d.isMatch).foldl (emit filter consumer) init) := by
  have := splitf_loop_lit str consumer filter d hlen fuel 0 init (Nat.zero_le _) (by omega)
  simpa only [splitf, find_first_of_from, List.drop_zero] using this

theorem foldl_emit_push (filter : View → Bool) (ts acc : List View) :
    ts.foldl (emit filter (fun res token => res ++ [token])) acc = acc ++ ts.filter filter := by
  induction ts generalizing acc with
  | nil => simp
  | cons t ts ih =>
    rw [List.foldl_cons, ih]
    by_cases h : filter t = true <;> simp [emit, List.filter_cons, h]

theorem split_lit (fuel : Nat) (str : View) (d : Delim) (filter : View → Bool)
    (hlen : str.length ≤ max_size) (hfuel : str.length < fuel) :
    split fuel str (.lit d) filter = .ok ((str.splitOnP d.isMatch).filter filter) := by
  rw [split, splitf_lit fuel str d _ _ filter hlen hfuel, foldl_emit_push, List.nil_append]

theorem filter_keep_empties (ts : List View) : ts.filter split_filters.keep_empties = ts := by
  apply List.filter_eq_self.mpr
  intro _ _
  rfl

theorem foldl_emit_keep {γ : Type} (consumer : γ → View → γ) (ts : List View) (acc : γ) :
    ts.foldl (emit split_filters.keep_empties consumer) acc = ts.foldl consumer acc := by
  induction ts generalizing acc with
  | nil => rfl
  | cons t ts ih => simp only [List.foldl_cons, ih]; rfl

theorem interleave_modifyHead (x : Char) (ts : List View) (ds : List Char) (h : ts ≠ []) :
    interleave (ts.modifyHead (List.cons x)) ds = x :: interleave ts ds := by
  cases ts with
  | nil => exact absurd rfl h
  | cons t ts => cases ds <;> simp [List.modifyHead, interleave]

theorem interleave_splitOnP (p : Char → Bool) (l : List Char) :
    interleave (l.splitOnP p) (l.filter p) = l := by
  induction l with
  | nil => simp [interleave]
  | cons x xs ih =>
    rw [List.splitOnP_cons, List.filter_cons]
    cases h : p x
    · rw [if_neg Bool.false_ne_true, if_neg Bool.false_ne_true,
        interleave_modifyHead x _ _ (List.splitOnP_ne_nil p xs), ih]
    · simp [interleave, ih]

theorem length_splitOnP (p : Char → Bool) (l : List Char) :
    (l.splitOnP p).length = l.countP p + 1 := by
  induction l with
  | nil => simp
  | cons x xs ih =>
    rw [List.splitOnP_cons]
    by_cases h : p x = true
    · simp [h, ih]
    · simp [h, ih, List.length_modifyHead]

theorem splitOnP_no_match (p : Char → Bool) (l : List Char) :
    ∀ t ∈ l.splitOnP p, ∀ c ∈ t, p c = false := by
  induction l with
  | nil => simp
  | cons x xs ih =>
    rw [List.splitOnP_cons]
    by_cases h : p x = true
    · rw [if_pos h]
      intro t ht c hc
      rcases List.mem_cons.mp ht with rfl | ht
      · simp at hc
      · exact ih t ht c hc
    · rw [if_neg h]
      cases hxs : xs.splitOnP p with
      | nil => exact absurd hxs (List.splitOnP_ne_nil p xs)
      | cons t0 ts =>
        rw [hxs] at ih
        intro t ht c hc
        rw [List.modifyHead] at ht
        rcases List.mem_cons.mp ht with rfl | ht
        · rcases List.mem_cons.mp hc with rfl | hc
          · simpa using h
          · exact ih t0 (List.mem_cons_self _ _) c hc
        · exact ih t (List.mem_cons_of_mem _ ht) c hc

theorem splitOnP_append_sep (p : Char → Bool) (l : List Char) (c : Char) (hc : p c = true) :
    (l ++ [c]).splitOnP p = l.splitOnP p ++ [[]] := by
  induction l with
  | nil => simp [List.splitOnP_cons, hc]
  | cons x xs ih =>
    rw [List.cons_append, List.splitOnP_cons, List.splitOnP_cons, ih]
    by_cases h : p x = true
    · simp [h]
    · simp only [h, if_false]
      cases hxs : xs.splitOnP p with
      | nil => exact absurd hxs (List.splitOnP_ne_nil p xs)
      | cons t0 ts => simp [List.modifyHead]

theorem isMatch_chr (c : Char) : Delim.isMatch (.chr c) = (fun x => x == c) := by
  funext x; rfl

/-! ## Tokenization with a character or a character set -/

/-- C1. Lossless tokenization: for a view `v` (of any size a view can have) and a delimiter
`d` that is a single character or a character set, `split(v, d, keep_empties)` returns
tokens `t0 .. tn`, `splitf` delivers these same tokens in this order to any consumer, and
`v = t0 ++ [d1] ++ t1 ++ ... ++ [dn] ++ tn` where `d1 .. dn` are the characters of `v`
matched by `d`, in order; for a single character `c`, joining the tokens with `c` gives
back `v`. -/
theorem C1_split_lossless (v : View) (d : Delim) (fuel : Nat)
    (hv : v.length ≤ max_size) (hfuel : v.length < fuel) :
    ∃ ts : List View,
      split fuel v (.lit d) split_filters.keep_empties = .ok ts ∧
      (∀ (γ : Type) (consumer : γ → View → γ) (init : γ),
        splitf fuel v (.lit d) consumer init split_filters.keep_empties
          = .ok (ts.foldl consumer init)) ∧
      ts.length = (v.filter d.isMatch).length + 1 ∧
      interleave ts (v.filter d.isMatch) = v ∧
      (∀ c : Char, d = .chr c → [c].intercalate ts = v) := by
  refine ⟨v.splitOnP d.isMatch, ?_, ?_, ?_, ?_, ?_⟩
  · rw [split_lit fuel v d _ hv hfuel, filter_keep_empties]
  · intro γ consumer init
    rw [splitf_lit fuel v d consumer init _ hv hfuel, foldl_emit_keep]
  · rw [length_splitOnP, List.countP_eq_length_filter]
  · exact interleave_splitOnP d.isMatch v
  · intro c hc
    subst hc
    rw [isMatch_chr]
    exact List.intercalate_splitOn v c

/-- The instance of C1 at the view `"a,,b"`, the delimiter `','` and fuel 5. -/
theorem C1_split_lossless_witness :
    ("a,,b".toList).length ≤ max_size ∧ ("a,,b".toList).length < 5 ∧
    ∃ ts : List View,
      split 5 ("a,,b".toList) (.lit (.chr ',')) split_filters.keep_empties = .ok ts ∧
      (∀ (γ : Type) (consumer : γ → View → γ) (init : γ),
        splitf 5 ("a,,b".toList) (.lit (.chr ',')) consumer init split_filters.keep_empties
          = .ok (ts.foldl consumer init)) ∧
      ts.length = (("a,,b".toList).filter (Delim.chr ',').isMatch).length + 1 ∧
      interleave ts (("a,,b".toList).filter (Delim.chr ',').isMatch) = "a,,b".toList ∧
      (∀ c : Char, Delim.chr ',' = .chr c → [c].intercalate ts = "a,,b".toList) :=
  ⟨by decide, by decide, C1_split_lossless _ _ _ (by decide) (by decide)⟩

/-- C2. For a view `v` and a character or character-set delimiter `d`,
`split(v, d, keep_empties)` returns exactly (number of characters of `v` matched by `d`) + 1
tokens; the empty view yields exactly one empty token, and a view whose last character is
matched by `d` yields an empty final token. -/
theorem C2_split_count (v : View) (d : Delim) (fuel : Nat)
    (hv : v.length ≤ max_size) (hfuel : v.length < fuel) :
    ∃ ts : List View,
      split fuel v (.lit d) split_filters.keep_empties = .ok ts ∧
      ts.length = v.countP d.isMatch + 1 ∧
      (v = [] → ts = [[]]) ∧
      (∀ (u : View) (c : Char), v = u ++ [c] → d.isMatch c = true → ts.getLast? = some []) := by
  refine ⟨v.splitOnP d.isMatch, ?_, length_splitOnP _ _, ?_, ?_⟩
  · rw [split_lit fuel v d _ hv hfuel, filter_keep_empties]
  · intro h
    rw [h, List.splitOnP_nil]
  · intro u c hu hc
    rw [hu, splitOnP_append_sep _ _ _ hc, List.getLast?_append]
    rfl

/-- The instance of C2 at the view `"a,b,"`, the delimiter `','` and fuel 5. -/
theorem C2_split_count_witness :
    ("a,b,".toList).length ≤ max_size ∧ ("a,b,".toList).length < 5 ∧
    ∃ ts : List View,
      split 5 ("a,b,".toList) (.lit (.chr ',')) split_filters.keep_empties = .ok ts ∧
      ts.length = ("a,b,".toList).countP (Delim.chr ',').isMatch + 1 ∧
      ("a,b,".toList = [] → ts = [[]]) ∧
      (∀ (u : View) (c : Char), "a,b,".toList = u ++ [c] → (Delim.chr ',').isMatch c = true →
        ts.getLast? = some []) :=
  ⟨by decide, by decide, C2_split_count _ _ _ (by decide) (by decide)⟩

/-- C6. For a view `v` and a character or character-set delimiter `d`,
`split(v, d, ignore_empties)` is `split(v, d, keep_empties)` with the empty tokens removed
and the order of the others kept; `split("a,,b", ',', ignore_empties) == ["a","b"]` and
`split("a,,b", ',', keep_empties) == ["a","","b"]`. -/
theorem C6_ignore_empties (v : View) (d : Delim) (fuel : Nat)
    (hv : v.length ≤ max_size) (hfuel : v.length < fuel) :
    (∃ ks : List View,
      split fuel v (.lit d) split_filters.keep_empties = .ok ks ∧
      split fuel v (.lit d) split_filters.ignore_empties = .ok (ks.filter (fun t => t ≠ []))) ∧
    split 5 ("a,,b".toList) (.lit (.chr ',')) split_filters.ignore_empties
      = .ok ["a".toList, "b".toList] ∧
    split 5 ("a,,b".toList) (.lit (.chr ',')) split_filters.keep_empties
      = .ok ["a".toList, "".toList, "b".toList] := by
  refine ⟨⟨v.splitOnP d.isMatch, ?_, ?_⟩, by rfl, by rfl⟩
  · rw [split_lit fuel v d _ hv hfuel, filter_keep_empties]
  · rw [split_lit fuel v d _ hv hfuel]
    congr 1
    apply List.filter_congr
    intro t _
    cases t <;> simp [split_filters.ignore_empties]

/-- The instance of C6 at the view `",x,,y"`, the character set `",;"` and fuel 6. -/
theorem C6_ignore_empties_witness :
    (",x,,y".toList).length ≤ max_size ∧ (",x,,y".toList).length < 6 ∧
    ((∃ ks : List View,
      split 6 (",x,,y".toList) (.lit (.set (",;".toList))) split_filters.keep_empties = .ok ks ∧
      split 6 (",x,,y".toList) (.lit (.set (",;".toList))) split_filters.ignore_empties
        = .ok (ks.filter (fun t => t ≠ []))) ∧
    split 5 ("a,,b".toList) (.lit (.chr ',')) split_filters.ignore_empties
      = .ok ["a".toList, "b".toList] ∧
    split 5 ("a,,b".toList) (.lit (.chr ',')) split_filters.keep_empties
      = .ok ["a".toList, "".toList, "b".toList]) :=
  ⟨by decide, by decide, C6_ignore_empties _ _ _ (by decide) (by decide)⟩

/-- C7. For a view `v`, a character or character-set delimiter `d` and any filter, the
tokens `split` returns, which are the tokens `splitf` delivers to its consumer, contain no
character matched by `d`. -/
theorem C7_no_delimiter_in_token (v : View) (d : Delim) (filter : View → Bool) (fuel : Nat)
    (hv : v.length ≤ max_size) (hfuel : v.length < fuel) :
    ∃ ts : List View,
      split fuel v (.lit d) filter = .ok ts ∧
      (∀ (γ : Type) (consumer : γ → View → γ) (init : γ),
        splitf fuel v (.lit d) consumer init filter = .ok (ts.foldl consumer init)) ∧
      ∀ t ∈ ts, ∀ c ∈ t, d.isMatch c = false := by
  refine ⟨(v.splitOnP d.isMatch).filter filter, split_lit fuel v d _ hv hfuel, ?_, ?_⟩
  · intro γ consumer init
    rw [splitf_lit fuel v d consumer init _ hv hfuel]
    generalize v.splitOnP d.isMatch = ts
    induction ts generalizing init with
    | nil => rfl
    | cons t ts ih =>
      rw [List.foldl_cons, ih, List.filter_cons]
      by_cases h : filter t = true <;> simp [emit, h]
  · intro t ht
    exact splitOnP_no_match d.isMatch v t (List.mem_of_mem_filter ht)

/-- The instance of C7 at the view `"a;b,c"`, the character set `",;"`, the filter
`ignore_empties` and fuel 6. -/
theorem C7_no_delimiter_in_token_witness :
    ("a;b,c".toList).length ≤ max_size ∧ ("a;b,c".toList).length < 6 ∧
    ∃ ts : List View,
      split 6 ("a;b,c".toList) (.lit (.set (",;".toList))) split_filters.ignore_empties = .ok ts ∧
      (∀ (γ : Type) (consumer : γ → View → γ) (init : γ),
        splitf 6 ("a;b,c".toList) (.lit (.set (",;".toList))) consumer init
          split_filters.ignore_empties = .ok (ts.foldl consumer init)) ∧
      ∀ t ∈ ts, ∀ c ∈ t, (Delim.set (",;".toList)).isMatch c = false :=
  ⟨by decide, by decide, C7_no_delimiter_in_token _ _ _ _ (by decide) (by decide)⟩

/-! ## Tokenization with `max_splits` -/

/-- The first token and the match count of a list that has a match. -/
theorem findIdx_split_facts (p : Char → Bool) (l : List Char) (h : l.findIdx p < l.length) :
    l.splitOnP p = l.take (l.findIdx p) :: (l.drop (l.findIdx p + 1)).splitOnP p ∧
    l.countP p = (l.drop (l.findIdx p + 1)).countP p + 1 := by
  obtain ⟨c, hc, hsplit⟩ := findIdx_split p l h
  have hnone := no_match_before p l
  constructor
  · have := List.splitOnP_first p _ hnone c hc (l.drop (l.findIdx p + 1))
    rwa [← hsplit] at this
  · have h0 : (l.take (l.findIdx p)).countP p = 0 := by
      rw [List.countP_eq_zero]
      exact hnone
    conv_lhs => rw [hsplit]
    rw [List.countP_append, h0, List.countP_cons, if_pos hc, Nat.zero_add]

theorem countP_eq_zero_of_findIdx (p : Char → Bool) (l : List Char)
    (h : ¬ l.findIdx p < l.length) : l.countP p = 0 := by
  rw [List.countP_eq_zero]
  exact no_match_of_findIdx p l h

theorem find_first_of_from_max_splits_zero (str ds : View) (start : Nat) :
    find_first_of_from str (.max_splits 0 ds) start = ((npos, npos), .max_splits 0 ds) := by
  simp [find_first_of_from, split_predicates.max_splits_call]

theorem find_first_of_from_max_splits_succ (str ds : View) (k start : Nat) :
    find_first_of_from str (.max_splits (k + 1) ds) start
      = ((find_first_of str (.set ds) start, wadd (find_first_of str (.set ds) start) 1),
          .max_splits k ds) := by
  simp [find_first_of_from, split_predicates.max_splits_call]

/-- With `max_splits` the loop of `splitf`, entered at `start` with budget `k`, offers a
list of tokens that agrees with the unbounded split on its first `min k m` tokens and ends
with the unsplit rest. -/
theorem splitf_loop_max_splits {γ : Type} (str : View) (consumer : γ → View → γ)
    (filter : View → Bool) (ds : View) (hlen : str.length ≤ max_size) :
    ∀ (fuel k start : Nat) (acc : γ), start ≤ str.length → str.length - start < fuel →
      ∃ ts : List View,
        splitf_loop str consumer filter fuel
            (find_first_of_from str (.max_splits k ds) start).2 start
            (find_first_of_from str (.max_splits k ds) start).1.1
            (find_first_of_from str (.max_splits k ds) start).1.2 acc
          = .ok (ts.foldl (emit filter consumer) acc) ∧
        ts.length = min k ((str.drop start).countP (Delim.set ds).isMatch) + 1 ∧
        ts.take (min k ((str.drop start).countP (Delim.set ds).isMatch))
          = ((str.drop start).splitOnP (Delim.set ds).isMatch).take
              (min k ((str.drop start).countP (Delim.set ds).isMatch)) ∧
        ts.getLast? = some (afterDelims (Delim.set ds).isMatch
          (min k ((str.drop start).countP (Delim.set ds).isMatch)) (str.drop start)) := by
  have hmax : str.length < 2 ^ 63 := by unfold max_size at hlen; omega
  intro fuel
  induction fuel with
  | zero => intro k start acc _ hf; omega
  | succ n ih =>
    intro k start acc hs hf
    have hfinal : ∀ (dp : DelimOrPred) (nx : Nat),
        splitf_loop str consumer filter (n + 1) dp start npos nx acc
          = .ok (emit filter consumer acc (str.drop start)) := by
      intro dp nx
      rw [splitf_loop]
      simp only [ne_eq, not_true_eq_false, false_and, if_false, hs, if_true]
      rw [wsub_of_le hs (by omega), substr_rest str hs]
    cases k with
    | zero =>
      refine ⟨[str.drop start], ?_, by simp, by simp, by simp [afterDelims]⟩
      rw [find_first_of_from_max_splits_zero, hfinal]
      rfl
    | succ k =>
      by_cases hfound : (str.drop start).findIdx (Delim.set ds).isMatch < (str.drop start).length
      · obtain ⟨htoks, hcount⟩ := findIdx_split_facts _ _ hfound
        have hpos := find_first_of_found str (.set ds) start hfound
        have hi : start + (str.drop start).findIdx (Delim.set ds).isMatch < str.length := by
          rw [List.length_drop] at hfound; omega
        rw [List.drop_drop, ← Nat.add_assoc] at htoks hcount
        have hafter : ∀ j, afterDelims (Delim.set ds).isMatch (j + 1) (str.drop start)
            = afterDelims (Delim.set ds).isMatch j
                (str.drop (start + (str.drop start).findIdx (Delim.set ds).isMatch + 1)) := by
          intro j
          rw [afterDelims, List.drop_drop, ← Nat.add_assoc]
        generalize (str.drop start).findIdx (Delim.set ds).isMatch = i at *
        have hne : start + i ≠ npos := by unfold npos; omega
        obtain ⟨ts, hrun, hl, htake, hlast⟩ := ih k (start + i + 1)
          (emit filter consumer acc (List.take i (List.drop start str))) (by omega) (by omega)
        refine ⟨List.take i (List.drop start str) :: ts, ?_, ?_, ?_, ?_⟩
        · rw [find_first_of_from_max_splits_succ, hpos, splitf_loop]
          simp only [hne, hi, ne_eq, not_false_eq_true, and_self, if_true]
          rw [wsub_of_le (by omega) (by omega), wadd_of_lt (by omega), Nat.add_sub_cancel_left,
            substr_of_le str i hs]
          simp only [hrun, List.foldl_cons]
        · rw [List.length_cons, hl, hcount, Nat.add_min_add_right]
        · rw [hcount, Nat.add_min_add_right, List.take_succ_cons, htake, htoks,
            List.take_succ_cons]
        · rw [hcount, Nat.add_min_add_right, hafter, ← hlast]
          cases ts with
          | nil => simp at hl
          | cons t ts => simp [List.getLast?_cons_cons]
      · have hpos := find_first_of_none str (.set ds) start hfound
        have hcount := countP_eq_zero_of_findIdx _ _ hfound
        refine ⟨[str.drop start], ?_, by simp [hcount], by simp [hcount],
          by simp [hcount, afterDelims]⟩
        rw [find_first_of_from_max_splits_succ, hpos, hfinal]
        rfl

/-- C5. For a view `v`, a character set `ds` and a budget `K`, with `m` the number of
characters of `v` in `ds`: `split(v, max_splits(K, ds))` with the keep-all filter has
exactly `min K m + 1` tokens, its first `min K m` tokens are the first `min K m` tokens of
`split(v, ds)`, and its last token is all of `v` after the `min K m`-th delimiter; `K = 0`
returns `[v]`, and `split("a:b:c:d", max_splits(2, ":")) == ["a","b","c:d"]`. -/
theorem C5_max_splits (v ds : View) (K fuel : Nat)
    (hv : v.length ≤ max_size) (hfuel : v.length < fuel) :
    (∃ ts : List View,
      split fuel v (.max_splits K ds) split_filters.keep_empties = .ok ts ∧
      ts.length = min K (v.countP (Delim.set ds).isMatch) + 1 ∧
      (∃ us : List View,
        split fuel v (.lit (.set ds)) split_filters.keep_empties = .ok us ∧
        ts.take (min K (v.countP (Delim.set ds).isMatch))
          = us.take (min K (v.countP (Delim.set ds).isMatch))) ∧
      ts.getLast? = some (afterDelims (Delim.set ds).isMatch
        (min K (v.countP (Delim.set ds).isMatch)) v) ∧
      (K = 0 → ts = [v])) ∧
    split 8 ("a:b:c:d".toList) (.max_splits 2 (":".toList)) split_filters.keep_empties
      = .ok ["a".toList, "b".toList, "c:d".toList] := by
  refine ⟨?_, by rfl⟩
  obtain ⟨ts, hrun, hl, htake, hlast⟩ := splitf_loop_max_splits v
    (fun res token => res ++ [token]) split_filters.keep_empties ds hv fuel K 0 []
    (Nat.zero_le _) (by omega)
  rw [List.drop_zero] at hl htake hlast
  refine ⟨ts, ?_, hl, ⟨v.splitOnP (Delim.set ds).isMatch, ?_, htake⟩, hlast, ?_⟩
  · rw [split, splitf, hrun, foldl_emit_push, filter_keep_empties, List.nil_append]
  · rw [split_lit fuel v _ _ hv hfuel, filter_keep_empties]
  · intro hK
    subst hK
    rw [Nat.zero_min] at hl hlast
    match ts, hl, hlast with
    | [t], _, hlast =>
      simp only [List.getLast?_singleton, afterDelims, Option.some.injEq] at hlast
      rw [hlast]

/-- The instance of C5 at the view `"k=v=w"`, the character set `"="`, budget 1 and
fuel 6. -/
theorem C5_max_splits_witness :
    ("k=v=w".toList).length ≤ max_size ∧ ("k=v=w".toList).length < 6 ∧
    ((∃ ts : List View,
      split 6 ("k=v=w".toList) (.max_splits 1 ("=".toList)) split_filters.keep_empties
        = .ok ts ∧
      ts.length = min 1 (("k=v=w".toList).countP (Delim.set ("=".toList)).isMatch) + 1 ∧
      (∃ us : List View,
        split 6 ("k=v=w".toList) (.lit (.set ("=".toList))) split_filters.keep_empties
          = .ok us ∧
        ts.take (min 1 (("k=v=w".toList).countP (Delim.set ("=".toList)).isMatch))
          = us.take (min 1 (("k=v=w".toList).countP (Delim.set ("=".toList)).isMatch))) ∧
      ts.getLast? = some (afterDelims (Delim.set ("=".toList)).isMatch
        (min 1 (("k=v=w".toList).countP (Delim.set ("=".toList)).isMatch)) ("k=v=w".toList)) ∧
      (1 = 0 → ts = ["k=v=w".toList])) ∧
    split 8 ("a:b:c:d".toList) (.max_splits 2 (":".toList)) split_filters.keep_empties
      = .ok ["a".toList, "b".toList, "c:d".toList]) :=
  ⟨by decide, by decide, C5_max_splits _ _ _ _ (by decide) (by decide)⟩

/-! ## Tokenization with `max_length` -/

theorem find_first_of_from_max_length (str : View) (n start : Nat) :
    find_first_of_from str (.max_length n) start
      = ((wadd start n, wadd start n), .max_length n) := rfl

/-- With `max_length(n)`, `n ≥ 1`, the loop of `splitf`, entered at `start`, offers the
consecutive chunks of length `n` of the rest of the view. -/
theorem splitf_loop_max_length {γ : Type} (str : View) (consumer : γ → View → γ)
    (filter : View → Bool) (n : Nat) (hn : 1 ≤ n) (hn64 : n < 2 ^ 64)
    (hlen : str.length ≤ max_size) :
    ∀ (fuel start : Nat) (acc : γ), (start = 0 ∨ (start < str.length ∧ n < str.length)) →
      str.length - start < fuel →
      ∃ ts : List View,
        splitf_loop str consumer filter fuel (.max_length n) start (wadd start n)
            (wadd start n) acc = .ok (ts.foldl (emit filter consumer) acc) ∧
        ts.flatten = str.drop start ∧
        (∀ t ∈ ts, t.length ≤ n) ∧
        (∀ t ∈ ts.dropLast, t.length = n) ∧
        ts ≠ [] ∧
        (∀ t ∈ ts, t = [] → str = []) := by
  have hmax : str.length < 2 ^ 63 := by unfold max_size at hlen; omega
  intro fuel
  induction fuel with
  | zero => intro start acc _ hf; omega
  | succ m ih =>
    intro start acc hst hf
    have hsum : start + n < 2 ^ 64 := by omega
    have hs : start ≤ str.length := by omega
    rw [wadd_of_lt hsum]
    by_cases hin : start + n < str.length
    · have hne : start + n ≠ npos := by unfold npos; omega
      obtain ⟨ts, hrun, hflat, hle, heq, hnil, hemp⟩ := ih (start + n)
        (emit filter consumer acc (List.take n (List.drop start str)))
        (Or.inr ⟨hin, by omega⟩) (by omega)
      have htl : (List.take n (List.drop start str)).length = n := by
        rw [List.length_take, List.length_drop]; omega
      refine ⟨List.take n (List.drop start str) :: ts, ?_, ?_, ?_, ?_, by simp, ?_⟩
      · rw [splitf_loop]
        simp only [hne, hin, ne_eq, not_false_eq_true, and_self, if_true,
          find_first_of_from_max_length]
        rw [wsub_of_le (by omega) (by omega), Nat.add_sub_cancel_left, substr_of_le str n hs]
        simp only [hrun, List.foldl_cons]
      · rw [List.flatten_cons, hflat, ← List.drop_drop, List.take_append_drop]
      · intro t ht
        rcases List.mem_cons.mp ht with rfl | ht
        · omega
        · exact hle t ht
      · rw [List.dropLast_cons_of_ne_nil hnil]
        intro t ht
        rcases List.mem_cons.mp ht with rfl | ht
        · exact htl
        · exact heq t ht
      · intro t ht h0
        rcases List.mem_cons.mp ht with rfl | ht
        · rw [h0] at htl
          simp at htl
          omega
        · exact hemp t ht h0
    · refine ⟨[str.drop start], ?_, by simp, ?_, by simp, by simp, ?_⟩
      · rw [splitf_loop]
        simp only [hin, and_false, if_false, hs, if_true]
        rw [wsub_of_le hs (by omega), substr_rest str hs]
        rfl
      · intro t ht
        rw [List.mem_singleton] at ht
        rw [ht, List.length_drop]
        omega
      · intro t ht h0
        rw [List.mem_singleton] at ht
        rw [ht] at h0
        have h1 : (List.drop start str).length = 0 := by rw [h0]; rfl
        rw [List.length_drop] at h1
        exact List.length_eq_zero.mp (by omega)

/-- With `max_length(0)` and a non-empty view the loop of `splitf` never ends: whatever
fuel it is given, it is still looping when the fuel is spent. -/
theorem splitf_loop_max_length_zero {γ : Type} (str : View) (consumer : γ → View → γ)
    (filter : View → Bool) (hne : str ≠ []) :
    ∀ (fuel : Nat) (acc : γ),
      splitf_loop str consumer filter fuel (.max_length 0) 0 0 0 acc = .error .out_of_fuel := by
  have hpos : 0 < str.length := List.length_pos.mpr hne
  have h0 : (0 : Nat) ≠ npos := by unfold npos; omega
  intro fuel
  induction fuel with
  | zero =>
    intro acc
    rw [splitf_loop]
    simp only [h0, hpos, ne_eq, not_false_eq_true, and_self, if_true]
  | succ m ih =>
    intro acc
    rw [splitf_loop]
    simp only [h0, hpos, ne_eq, not_false_eq_true, and_self, if_true,
      find_first_of_from_max_length]
    rw [substr_of_le str _ (Nat.zero_le _)]
    exact ih _

/-- `split(v, max_length(0))` does not return for a non-empty view `v`. -/
theorem split_max_length_zero_diverges (v : View) (filter : View → Bool) (hne : v ≠ [])
    (fuel : Nat) :
    split fuel v (.max_length 0) filter = .error .out_of_fuel := by
  rw [split, splitf, find_first_of_from_max_length]
  exact splitf_loop_max_length_zero v _ filter hne fuel []

/-- C9. For a view `v` and a run length `N ≥ 1`, `split(v, max_length(N))` with the
keep-all filter yields the consecutive chunks of `v`: the tokens concatenated in order
give `v`, every token has length at most `N`, every token but the last has length exactly
`N`, no token is empty when `v` is not, and the empty view yields one empty token. -/
theorem C9_max_length_chunks (v : View) (N fuel : Nat) (hN : 1 ≤ N) (hN64 : N < 2 ^ 64)
    (hv : v.length ≤ max_size) (hfuel : v.length < fuel) :
    ∃ ts : List View,
      split fuel v (.max_length N) split_filters.keep_empties = .ok ts ∧
      ts.flatten = v ∧
      (∀ t ∈ ts, t.length ≤ N) ∧
      (∀ t ∈ ts.dropLast, t.length = N) ∧
      (v ≠ [] → ∀ t ∈ ts, t ≠ []) ∧
      (v = [] → ts = [[]]) := by
  obtain ⟨ts, hrun, hflat, hle, heq, hnil, hemp⟩ := splitf_loop_max_length v
    (fun res token => res ++ [token]) split_filters.keep_empties N hN hN64 hv fuel 0 []
    (Or.inl rfl) (by omega)
  rw [List.drop_zero] at hflat
  refine ⟨ts, ?_, hflat, hle, heq, ?_, ?_⟩
  · rw [split, splitf, find_first_of_from_max_length, hrun, foldl_emit_push,
      filter_keep_empties, List.nil_append]
  · intro hne t ht h0
    exact hne (hemp t ht h0)
  · intro hv0
    rw [hv0] at hflat
    match ts, hnil, hflat, heq with
    | [t], _, hflat, _ =>
      rw [List.flatten_cons, List.flatten_nil, List.append_nil] at hflat
      rw [hflat]
    | t :: u :: us, _, hflat, heq =>
      exfalso
      have h1 : t.length = N := heq t (by simp [List.dropLast])
      rw [List.flatten_cons] at hflat
      have h2 : t = [] := (List.append_eq_nil.mp hflat).1
      rw [h2] at h1
      simp at h1
      omega

/-- The instance of C9 at the view `"abcde"`, run length 2 and fuel 6. -/
theorem C9_max_length_chunks_witness :
    1 ≤ 2 ∧ 2 < 2 ^ 64 ∧ ("abcde".toList).length ≤ max_size ∧ ("abcde".toList).length < 6 ∧
    ∃ ts : List View,
      split 6 ("abcde".toList) (.max_length 2) split_filters.keep_empties = .ok ts ∧
      ts.flatten = "abcde".toList ∧
      (∀ t ∈ ts, t.length ≤ 2) ∧
      (∀ t ∈ ts.dropLast, t.length = 2) ∧
      ("abcde".toList ≠ [] → ∀ t ∈ ts, t ≠ []) ∧
      ("abcde".toList = [] → ts = [[]]) :=
  ⟨by decide, by decide, by decide, by decide,
    C9_max_length_chunks _ _ _ (by decide) (by decide) (by decide) (by decide)⟩

/-! ## Progress and termination of `splitf` -/

theorem find_first_of_ge (s : View) (d : Delim) (start : Nat)
    (h : find_first_of s d start ≠ npos) : start ≤ find_first_of s d start := by
  by_cases hfound : (s.drop start).findIdx d.isMatch < (s.drop start).length
  · rw [find_first_of_found s d start hfound]; omega
  · exact absurd (find_first_of_none s d start hfound) h

/-- The claim C8 fails as stated: on `"abcd"` the delimiter `max_length(2)` reports the
in-range match `(2, 2)`, whose resume position is not greater than its match position. -/
theorem C8_counterexample :
    (find_first_of_from ("abcd".toList) (.max_length 2) 0).1.1 ≠ npos ∧
    (find_first_of_from ("abcd".toList) (.max_length 2) 0).1.1 < ("abcd".toList).length ∧
    ¬ ((find_first_of_from ("abcd".toList) (.max_length 2) 0).1.2
        > (find_first_of_from ("abcd".toList) (.max_length 2) 0).1.1) := by
  decide

/-- One loop turn: an in-range match moves `start` strictly forward and not past the end.
For `max_length(n)` the position is one the loop reaches: `start = 0`, or `n < size`. -/
theorem find_first_of_from_progress (v : View) (d : DelimOrPred) (start : Nat)
    (hv : v.length ≤ max_size) (hstart : start ≤ v.length)
    (hd : ∀ n, d = .max_length n → 1 ≤ n ∧ n < 2 ^ 64 ∧ (start = 0 ∨ n < v.length))
    (hne : (find_first_of_from v d start).1.1 ≠ npos)
    (hin : (find_first_of_from v d start).1.1 < v.length) :
    start < (find_first_of_from v d start).1.2 ∧
    (find_first_of_from v d start).1.2 ≤ v.length ∧
    ((∀ n, d ≠ .max_length n) →
      (find_first_of_from v d start).1.2 = (find_first_of_from v d start).1.1 + 1) ∧
    (∀ n, d = .max_length n →
      (find_first_of_from v d start).1.2 = (find_first_of_from v d start).1.1 ∧
      (find_first_of_from v d start).1.2 = start + n ∧ n < v.length) := by
  have hmax : v.length < 2 ^ 63 := by unfold max_size at hv; omega
  cases d with
  | lit l =>
    simp only [find_first_of_from] at hne hin ⊢
    have hge := find_first_of_ge v l start hne
    rw [if_pos hne, wadd_of_lt (by omega)]
    exact ⟨by omega, by omega, fun _ => rfl, by intro n h; cases h⟩
  | max_splits k ds =>
    cases k with
    | zero =>
      rw [find_first_of_from_max_splits_zero] at hne
      exact absurd rfl hne
    | succ k =>
      rw [find_first_of_from_max_splits_succ] at hne hin ⊢
      have hge := find_first_of_ge v (.set ds) start hne
      simp only at hin ⊢
      rw [wadd_of_lt (by omega)]
      exact ⟨by omega, by omega, fun _ => rfl, by intro n h; cases h⟩
  | max_length n =>
    obtain ⟨hn, hn64, hreach⟩ := hd n rfl
    have hw : wadd start n = start + n := wadd_of_lt (by omega)
    have hin2 : wadd start n < v.length := hin
    rw [hw] at hin2
    rw [find_first_of_from_max_length]
    refine ⟨?_, ?_, ?_, ?_⟩
    · show start < wadd start n
      omega
    · show wadd start n ≤ v.length
      omega
    · intro h
      exact absurd rfl (h n)
    · intro n1 h
      cases h
      exact ⟨rfl, hw, by omega⟩

/-- What holds at every head of the loop of `splitf`: `start` is not past the end, the
delimiter object still has the shape it was passed with, and for `max_length(n)` either
`start = 0` or `n < size`. -/
theorem loopHead_invariant (v : View) (spec : DelimOrPred) (hv : v.length ≤ max_size)
    (hspec : ∀ n, spec = .max_length n → 1 ≤ n ∧ n < 2 ^ 64)
    (d : DelimOrPred) (start : Nat) (h : LoopHead v spec d start) :
    start ≤ v.length ∧
    (∀ n, spec = .max_length n → d = .max_length n) ∧
    ((∀ n, spec ≠ .max_length n) → ∀ n, d ≠ .max_length n) ∧
    (∀ n, d = .max_length n → 1 ≤ n ∧ n < 2 ^ 64 ∧ (start = 0 ∨ n < v.length)) := by
  induction h with
  | entry =>
    refine ⟨Nat.zero_le _, fun _ hn => hn, fun h => h, ?_⟩
    intro n hn
    exact ⟨(hspec n hn).1, (hspec n hn).2, Or.inl rfl⟩
  | turn hhead hne hin ih =>
    rename_i d0 s0
    obtain ⟨hs, hsame, hother, hd⟩ := ih
    obtain ⟨_, hle, _, hml⟩ := find_first_of_from_progress v d0 s0 hv hs hd hne hin
    have hkeep : ∀ n, (find_first_of_from v d0 s0).2 = .max_length n → d0 = .max_length n := by
      intro n hn
      cases d0 with
      | lit l => simp [find_first_of_from] at hn
      | max_splits k ds => simp [find_first_of_from] at hn
      | max_length m =>
        rw [find_first_of_from_max_length] at hn
        exact hn
    refine ⟨hle, ?_, ?_, ?_⟩
    · intro n hn
      rw [hsame n hn, find_first_of_from_max_length]
    · intro hsp n hn
      exact hother hsp n (hkeep n hn)
    · intro n hn
      obtain ⟨h1, h64, _⟩ := hd n (hkeep n hn)
      exact ⟨h1, h64, Or.inr (hml n (hkeep n hn)).2.2⟩

/-- Away from the heads of the loop the sum `start + N` of `max_length` can wrap around:
called at `start = 1` on `"ab"` with `N = 2 ^ 64 - 1` it reports the match `(0, 0)`.  The
loop of `splitf` never makes this call: its first call, at `start = 0`, reports
`(2 ^ 64 - 1, 2 ^ 64 - 1)`, which is not in range. -/
theorem max_length_wraps_off_loop :
    (find_first_of_from ("ab".toList) (.max_length (2 ^ 64 - 1)) 1).1 = (0, 0) ∧
    (find_first_of_from ("ab".toList) (.max_length (2 ^ 64 - 1)) 0).1 = (npos, npos) := by
  decide

/-- C8, amended. For a view `v` and a delimiter that is a single character, a character
set, `max_splits(K, D)` for any `K`, or `max_length(N)` with `N ≥ 1`:
an in-range match `(matchStart, resumeAt)` that `find_first_of_from` returns for the first
three, called at any `start ≤ size`, has `resumeAt = matchStart + 1` and `resumeAt > start`;
and at every head of the loop of `splitf` (the first call at `start = 0`, each later call
at the `next` of an in-range match) an in-range match has `start < resumeAt ≤ size`, with
`resumeAt = matchStart + 1` for the first three and `resumeAt = matchStart = start + N`
for `max_length(N)`.  So `start` strictly increases on every loop turn, and `splitf`
terminates: it returns normally once given more fuel than the size of the view. -/
theorem C8_progress_and_termination (v : View) (spec : DelimOrPred) (fuel : Nat)
    (hv : v.length ≤ max_size) (hfuel : v.length < fuel)
    (hspec : ∀ n, spec = .max_length n → 1 ≤ n ∧ n < 2 ^ 64) :
    (∀ start, start ≤ v.length → (∀ n, spec ≠ .max_length n) →
      (find_first_of_from v spec start).1.1 ≠ npos →
      (find_first_of_from v spec start).1.1 < v.length →
        (find_first_of_from v spec start).1.2 = (find_first_of_from v spec start).1.1 + 1 ∧
        start < (find_first_of_from v spec start).1.2) ∧
    (∀ d start, LoopHead v spec d start →
      (find_first_of_from v d start).1.1 ≠ npos →
      (find_first_of_from v d start).1.1 < v.length →
        start < (find_first_of_from v d start).1.2 ∧
        (find_first_of_from v d start).1.2 ≤ v.length ∧
        ((∀ n, spec ≠ .max_length n) →
          (find_first_of_from v d start).1.2 = (find_first_of_from v d start).1.1 + 1) ∧
        (∀ n, spec = .max_length n →
          (find_first_of_from v d start).1.2 = (find_first_of_from v d start).1.1 ∧
          (find_first_of_from v d start).1.2 = start + n)) ∧
    (∀ (γ : Type) (consumer : γ → View → γ) (init : γ) (filter : View → Bool),
      ∃ res : γ, splitf fuel v spec consumer init filter = .ok res) := by
  refine ⟨?_, ?_, ?_⟩
  · intro start hstart hsp hne hin
    obtain ⟨hlt, _, hnext, _⟩ := find_first_of_from_progress v spec start hv hstart
      (fun n hn => absurd hn (hsp n)) hne hin
    exact ⟨hnext hsp, hlt⟩
  · intro d start hhead hne hin
    obtain ⟨hs, hsame, hother, hd⟩ := loopHead_invariant v spec hv hspec d start hhead
    obtain ⟨hlt, hle, hnext, hml⟩ := find_first_of_from_progress v d start hv hs hd hne hin
    refine ⟨hlt, hle, fun hsp => hnext (hother hsp), ?_⟩
    intro n hsp
    exact ⟨(hml n (hsame n hsp)).1, (hml n (hsame n hsp)).2.1⟩
  · intro γ consumer init filter
    cases spec with
    | lit d => exact ⟨_, splitf_lit fuel v d consumer init filter hv hfuel⟩
    | max_splits k ds =>
      obtain ⟨ts, hrun, _⟩ := splitf_loop_max_splits v consumer filter ds hv fuel k 0 init
        (Nat.zero_le _) (by omega)
      exact ⟨_, hrun⟩
    | max_length n =>
      obtain ⟨hn, hn64⟩ := hspec n rfl
      obtain ⟨ts, hrun, _⟩ := splitf_loop_max_length v consumer filter n hn hn64 hv fuel 0 init
        (Or.inl rfl) (by omega)
      exact ⟨_, by rw [splitf, find_first_of_from_max_length]; exact hrun⟩

/-- The instance of C8 (amended) at the view `"abcde"`, the delimiter `max_length(2)` and
fuel 6. -/
theorem C8_progress_and_termination_witness :
    ("abcde".toList).length ≤ max_size ∧ ("abcde".toList).length < 6 ∧
    (∀ n, DelimOrPred.max_length 2 = .max_length n → 1 ≤ n ∧ n < 2 ^ 64) ∧
    ((∀ start, start ≤ ("abcde".toList).length →
      (∀ n, DelimOrPred.max_length 2 ≠ .max_length n) →
      (find_first_of_from ("abcde".toList) (.max_length 2) start).1.1 ≠ npos →
      (find_first_of_from ("abcde".toList) (.max_length 2) start).1.1
        < ("abcde".toList).length →
        (find_first_of_from ("abcde".toList) (.max_length 2) start).1.2
          = (find_first_of_from ("abcde".toList) (.max_length 2) start).1.1 + 1 ∧
        start < (find_first_of_from ("abcde".toList) (.max_length 2) start).1.2) ∧
    (∀ d start, LoopHead ("abcde".toList) (.max_length 2) d start →
      (find_first_of_from ("abcde".toList) d start).1.1 ≠ npos →
      (find_first_of_from ("abcde".toList) d start).1.1 < ("abcde".toList).length →
        start < (find_first_of_from ("abcde".toList) d start).1.2 ∧
        (find_first_of_from ("abcde".toList) d start).1.2 ≤ ("abcde".toList).length ∧
        ((∀ n, DelimOrPred.max_length 2 ≠ .max_length n) →
          (find_first_of_from ("abcde".toList) d start).1.2
            = (find_first_of_from ("abcde".toList) d start).1.1 + 1) ∧
        (∀ n, DelimOrPred.max_length 2 = .max_length n →
          (find_first_of_from ("abcde".toList) d start).1.2
            = (find_first_of_from ("abcde".toList) d start).1.1 ∧
          (find_first_of_from ("abcde".toList) d start).1.2 = start + n)) ∧
    (∀ (γ : Type) (consumer : γ → View → γ) (init : γ) (filter : View → Bool),
      ∃ res : γ, splitf 6 ("abcde".toList) (.max_length 2) consumer init filter = .ok res)) :=
  have hspec : ∀ n, DelimOrPred.max_length 2 = .max_length n → 1 ≤ n ∧ n < 2 ^ 64 := by
    intro n h
    cases h
    exact ⟨by decide, by decide⟩
  ⟨by decide, by decide, hspec,
    C8_progress_and_termination _ _ _ (by decide) (by decide) hspec⟩

/-! ## `mid` -/

theorem take_min_drop (v : View) (a n : Nat) :
    (v.drop a).take (min n (v.length - a)) = (v.drop a).take n := by
  by_cases hn : n ≤ v.length - a
  · rw [Nat.min_eq_left hn]
  · rw [Nat.min_eq_right (by omega), List.take_of_length_le (by simp),
      List.take_of_length_le (by simp; omega)]

theorem mid_eq (v : View) (start count : Nat) (hv : v.length ≤ max_size)
    (hc : count < 2 ^ 64) :
    mid v start count
      = .ok ((v.drop (min start v.length)).take (min count (v.length - min start v.length))) := by
  have hmax : v.length < 2 ^ 63 := by unfold max_size at hv; omega
  have ha : (if start > v.length then v.length else start) = min start v.length := by
    split <;> omega
  unfold mid
  simp only [ha]
  generalize hadef : min start v.length = a
  have hale : a ≤ v.length := by omega
  rw [if_neg (by omega : ¬ a > v.length)]
  have hcount : ∀ n, (n = count ∨ (n = v.length - a ∧ v.length - a ≤ count)) →
      (if a = 0 ∧ wadd a n = v.length then Except.ok v else substr v a n)
        = .ok ((v.drop a).take (min count (v.length - a))) := by
    intro n hn
    have htake : (v.drop a).take n = (v.drop a).take (min count (v.length - a)) := by
      rcases hn with rfl | ⟨rfl, hle⟩
      · exact (take_min_drop v a n).symm
      · rw [Nat.min_eq_right hle]
    split
    · rename_i h
      obtain ⟨h0, hw⟩ := h
      subst h0
      rw [← htake, List.drop_zero]
      congr 1
      symm
      apply List.take_of_length_le
      rcases hn with rfl | ⟨rfl, _⟩
      · unfold wadd at hw
        rw [Nat.zero_add, Nat.mod_eq_of_lt hc] at hw
        omega
      · omega
    · rw [substr_of_le v n hale, htake]
  by_cases hover : wadd a count > v.length
  · rw [if_pos hover, wsub_of_le hale (by omega)]
    apply hcount
    right
    refine ⟨rfl, ?_⟩
    unfold wadd at hover
    by_cases hsum : a + count < 2 ^ 64
    · rw [Nat.mod_eq_of_lt hsum] at hover
      omega
    · omega
  · rw [if_neg hover]
    exact hcount count (Or.inl rfl)

/-- C10. For a view `v` and `size_t` values `start` and `count`, `mid(v, start, count)`
returns, never failing, the range of `v` that begins at `s = min(start, size)` and has
length `min(count, size - s)`, also when `start + count` wraps around; so
`mid(v, 0, size(v)) == v`, and `mid(v, size(v)+10, 5)` equals `mid(v, size(v), 0)`, the
empty view. -/
theorem C10_mid (v : View) (start count : Nat) (hv : v.length ≤ max_size)
    (hc : count < 2 ^ 64) :
    mid v start count
      = .ok ((v.drop (min start v.length)).take (min count (v.length - min start v.length))) ∧
    mid v 0 v.length = .ok v ∧
    mid v (wadd v.length 10) 5 = mid v v.length 0 ∧
    mid v v.length 0 = .ok [] := by
  have hmax : v.length < 2 ^ 63 := by unfold max_size at hv; omega
  refine ⟨mid_eq v start count hv hc, ?_, ?_, ?_⟩
  · rw [mid_eq v 0 v.length hv (by omega)]
    simp
  · rw [mid_eq v _ 5 hv (by omega), mid_eq v _ 0 hv (by omega), wadd_of_lt (by omega)]
    simp
  · rw [mid_eq v _ 0 hv (by omega)]
    simp

/-- The instance of C10 at the view `"hello"`, start 2 and count `2 ^ 64 - 1`, where
`start + count` wraps around. -/
theorem C10_mid_witness :
    ("hello".toList).length ≤ max_size ∧ 2 ^ 64 - 1 < 2 ^ 64 ∧
    (mid ("hello".toList) 2 (2 ^ 64 - 1)
      = .ok ((("hello".toList).drop (min 2 ("hello".toList).length)).take
          (min (2 ^ 64 - 1) (("hello".toList).length - min 2 ("hello".toList).length))) ∧
    mid ("hello".toList) 0 ("hello".toList).length = .ok ("hello".toList) ∧
    mid ("hello".toList) (wadd ("hello".toList).length 10) 5
      = mid ("hello".toList) ("hello".toList).length 0 ∧
    mid ("hello".toList) ("hello".toList).length 0 = .ok []) :=
  ⟨by decide, by decide, C10_mid _ _ _ (by decide) (by decide)⟩

/-! ## Typed parse -/

theorem foldl_digits (ds : List Char) (acc : Nat) :
    ds.foldl (fun a c => 10 * a + (c.toNat - '0'.toNat)) acc
      = acc * 10 ^ ds.length + digitsValue ds := by
  induction ds generalizing acc with
  | nil => simp [digitsValue]
  | cons c cs ih =>
    rw [List.foldl_cons, ih]
    have h48 : '0'.toNat = 48 := rfl
    simp only [digitsValue, List.map_cons, List.reverse_cons, Nat.ofDigits_append,
      Nat.ofDigits_singleton, List.length_reverse, List.length_map, List.length_cons, h48]
    ring

theorem isDigit_ne_minus (c : Char) (h : c.isDigit = true) : c ≠ '-' := by
  intro hc
  rw [hc] at h
  exact absurd h (by decide)

theorem isIntLiteral_cases (p : View) (h : isIntLiteral p = true) :
    (∃ ds, p = '-' :: ds ∧ ds ≠ [] ∧ ∀ c ∈ ds, c.isDigit = true) ∨
    (p ≠ [] ∧ (∀ c ∈ p, c.isDigit = true) ∧ p.head? ≠ some '-') := by
  unfold isIntLiteral at h
  split at h
  · rename_i hh
    left
    cases p with
    | nil => simp at hh
    | cons c ds =>
      simp only [List.head?_cons, Option.some.injEq] at hh
      subst hh
      simp only [List.tail_cons, Bool.and_eq_true, Bool.not_eq_true', List.isEmpty_eq_false,
        List.all_eq_true] at h
      exact ⟨ds, rfl, h.1, h.2⟩
  · rename_i hh
    right
    simp only [Bool.and_eq_true, Bool.not_eq_true', List.isEmpty_eq_false,
      List.all_eq_true] at h
    exact ⟨h.1, h.2, hh⟩

theorem isIntLiteral_minus (ds : List Char) (hne : ds ≠ [])
    (hdig : ∀ c ∈ ds, c.isDigit = true) : isIntLiteral ('-' :: ds) = true := by
  unfold isIntLiteral
  simp only [List.head?_cons, if_true, List.tail_cons, Bool.and_eq_true, Bool.not_eq_true',
    List.isEmpty_eq_false, List.all_eq_true]
  exact ⟨hne, hdig⟩

theorem head?_digits_ne_minus (ds : List Char) (hdig : ∀ c ∈ ds, c.isDigit = true) :
    ds.head? ≠ some '-' := by
  cases ds with
  | nil => simp
  | cons c cs =>
    simp only [List.head?_cons, ne_eq, Option.some.injEq]
    exact isDigit_ne_minus c (hdig c (List.mem_cons_self _ _))

theorem isIntLiteral_digits (ds : List Char) (hne : ds ≠ [])
    (hdig : ∀ c ∈ ds, c.isDigit = true) : isIntLiteral ds = true := by
  unfold isIntLiteral
  rw [if_neg (head?_digits_ne_minus ds hdig)]
  simp only [Bool.and_eq_true, Bool.not_eq_true', List.isEmpty_eq_false, List.all_eq_true]
  exact ⟨hne, hdig⟩

theorem from_chars_minus (ds r : List Char) (hne : ds ≠ [])
    (htw : (ds ++ r).takeWhile Char.isDigit = ds) :
    from_chars ('-' :: (ds ++ r))
      = from_chars_outcome (1 + ds.length) (-(digitsValue ds : Int)) := by
  have hemp : ds.isEmpty = false := by simpa using hne
  simp only [from_chars, List.head?_cons, beq_self_eq_true, if_true, List.tail_cons, htw,
    hemp, Bool.false_eq_true, if_false, foldl_digits, Nat.zero_mul, Nat.zero_add,
    from_chars_outcome, inIntRange, INT_MIN, INT_MAX]

theorem from_chars_digits (ds r : List Char) (hne : ds ≠ [])
    (hhead : (ds ++ r).head? ≠ some '-')
    (htw : (ds ++ r).takeWhile Char.isDigit = ds) :
    from_chars (ds ++ r) = from_chars_outcome ds.length (digitsValue ds : Int) := by
  have hemp : ds.isEmpty = false := by simpa using hne
  have hneg : ((ds ++ r).head? == some '-') = false := by simpa using hhead
  simp only [from_chars, hneg, Bool.false_eq_true, if_false, htw, hemp, foldl_digits,
    Nat.zero_mul, Nat.zero_add, from_chars_outcome, inIntRange, INT_MIN, INT_MAX]

/-- Digits followed by text that the longest literal does not reach are followed by no
further digit. -/
theorem takeWhile_of_no_longer (ds r : List Char) (hdig : ∀ c ∈ ds, c.isDigit = true)
    (hshort : (r.takeWhile Char.isDigit).length = 0) :
    (ds ++ r).takeWhile Char.isDigit = ds := by
  rw [List.takeWhile_append_of_pos hdig, List.length_eq_zero.mp hshort, List.append_nil]

theorem from_chars_longest (s p : View) (h : LongestLiteral s p) :
    from_chars s = from_chars_outcome p.length (literalValue p) := by
  obtain ⟨hlit, ⟨r, hs⟩, hmax⟩ := h
  have hr : r = r.takeWhile Char.isDigit ++ r.dropWhile Char.isDigit :=
    (List.takeWhile_append_dropWhile Char.isDigit r).symm
  have hedig : ∀ c ∈ r.takeWhile Char.isDigit, c.isDigit = true :=
    fun c hc => List.mem_takeWhile_imp hc
  rcases isIntLiteral_cases p hlit with ⟨ds, hp, hne, hdig⟩ | ⟨hne, hdig, hhead⟩
  · subst hp
    have hshort : (r.takeWhile Char.isDigit).length = 0 := by
      have hq := hmax ('-' :: (ds ++ r.takeWhile Char.isDigit)) (r.dropWhile Char.isDigit)
        (by rw [hs]; conv_lhs => rw [hr]
            simp only [List.cons_append, List.append_assoc])
        (isIntLiteral_minus _ (by simp [hne]) (by
          intro c hc
          rcases List.mem_append.mp hc with hc | hc
          · exact hdig c hc
          · exact hedig c hc))
      simp only [List.length_cons, List.length_append] at hq
      omega
    have hval : literalValue ('-' :: ds) = -(digitsValue ds : Int) := by
      simp [literalValue]
    rw [hs, hval, List.cons_append,
      from_chars_minus ds r hne (takeWhile_of_no_longer ds r hdig hshort), List.length_cons,
      Nat.add_comm]
  · have hshort : (r.takeWhile Char.isDigit).length = 0 := by
      have hq := hmax (p ++ r.takeWhile Char.isDigit) (r.dropWhile Char.isDigit)
        (by rw [hs]; conv_lhs => rw [hr]
            simp only [List.append_assoc])
        (isIntLiteral_digits _ (by simp [hne]) (by
          intro c hc
          rcases List.mem_append.mp hc with hc | hc
          · exact hdig c hc
          · exact hedig c hc))
      simp only [List.length_append] at hq
      omega
    have hval : literalValue p = (digitsValue p : Int) := by
      unfold literalValue
      rw [if_neg hhead]
    have hh : (p ++ r).head? ≠ some '-' := by
      cases p with
      | nil => exact absurd rfl hne
      | cons c cs => simpa using hhead
    rw [hs, hval, from_chars_digits p r hne hh (takeWhile_of_no_longer p r hdig hshort)]

theorem from_chars_no_literal (s : View)
    (h : ∀ q r, s = q ++ r → isIntLiteral q = false) :
    from_chars s = ⟨0, .invalid_argument, 0⟩ := by
  have key : ∀ body : List Char, (∀ ds r, body = ds ++ r → ds ≠ [] →
      (∀ c ∈ ds, c.isDigit = true) → False) → (body.takeWhile Char.isDigit).isEmpty = true := by
    intro body hb
    by_contra hcon
    have hne : body.takeWhile Char.isDigit ≠ [] := by simpa using hcon
    exact hb _ _ (List.takeWhile_append_dropWhile Char.isDigit body).symm hne
      (fun c hc => List.mem_takeWhile_imp hc)
  unfold from_chars
  by_cases hneg : s.head? = some '-'
  · cases s with
    | nil => simp at hneg
    | cons c body =>
      simp only [List.head?_cons, Option.some.injEq] at hneg
      subst hneg
      have hemp := key body (by
        intro ds r hbody hne hdig
        have := h ('-' :: ds) r (by rw [hbody]; rfl)
        rw [isIntLiteral_minus ds hne hdig] at this
        exact Bool.noConfusion this)
      simp only [List.head?_cons, beq_self_eq_true, if_true, List.tail_cons, hemp]
  · have hb : (s.head? == some '-') = false := by simpa using hneg
    have hemp := key s (by
      intro ds r hbody hne hdig
      have := h ds r hbody
      rw [isIntLiteral_digits ds hne hdig] at this
      exact Bool.noConfusion this)
    simp only [hb, Bool.false_eq_true, if_false, hemp, if_true]

/-- A literal followed by the end of the view or by a character that is not a digit is
the longest literal at the start of the view. -/
theorem longestLiteral_of_stop (p r : View) (hlit : isIntLiteral p = true)
    (hstop : r.takeWhile Char.isDigit = []) : LongestLiteral (p ++ r) p := by
  refine ⟨hlit, ⟨r, rfl⟩, ?_⟩
  intro q t hqt hq
  by_contra hlong
  have hlen : p.length < q.length := by omega
  obtain ⟨a, hqa, hra⟩ : ∃ a, q = p ++ a ∧ r = a ++ t := by
    rcases List.append_eq_append_iff.mp hqt with ⟨a, hq1, hr1⟩ | ⟨c, hp1, ht1⟩
    · exact ⟨a, hq1, hr1⟩
    · rw [hp1, List.length_append] at hlen
      omega
  cases a with
  | nil => rw [hqa, List.append_nil] at hlen; omega
  | cons c a =>
    have hc : c.isDigit = false := by
      rw [hra, List.cons_append, List.takeWhile_cons] at hstop
      by_contra hcon
      rw [Bool.not_eq_false] at hcon
      rw [if_pos hcon] at hstop
      exact List.noConfusion hstop
    have hpne : p ≠ [] := by
      rcases isIntLiteral_cases p hlit with ⟨ds, hp, _, _⟩ | ⟨hne, _, _⟩
      · rw [hp]; exact List.cons_ne_nil _ _
      · exact hne
    have hcd : c.isDigit = true := by
      rcases isIntLiteral_cases q hq with ⟨ds, hqd, _, hdig⟩ | ⟨_, hdig, _⟩
      · cases p with
        | nil => exact absurd rfl hpne
        | cons b p1 =>
          rw [hqa, List.cons_append] at hqd
          have hds : ds = p1 ++ c :: a := (List.cons.inj hqd).2.symm
          exact hdig c (by rw [hds]; simp)
      · exact hdig c (by rw [hqa]; simp)
    rw [hc] at hcd
    exact Bool.noConfusion hcd

theorem try_consume_as_longest (s p : View) (h : LongestLiteral s p) :
    try_consume_as s = if inIntRange (literalValue p)
      then (some (literalValue p), s.drop p.length) else (none, s) := by
  unfold try_consume_as
  rw [from_chars_longest s p h]
  unfold from_chars_outcome
  split <;> simp

/-- The claim C3 fails as stated: `try_parse<int>("42x")` returns 42 although the match
ends after 2 of the 3 characters of the view. -/
theorem C3_counterexample :
    try_parse ("42x".toList) = some 42 ∧ (from_chars ("42x".toList)).ptr = 2 ∧
    ("42x".toList).length = 3 := by
  decide

/-- C3, amended. `try_parse<int>` follows the strict decimal integer grammar (an optional
`'-'`, then digits; no whitespace) at the start of the view and does not require the match
to reach the end: for a view `s` whose longest literal at the start is `p`, it returns the
number `p` denotes when that fits `int` and is absent when it does not, whatever follows
`p`; for a view `u` no prefix of which is a literal it is absent;
`try_parse<int>("42") == 42` and `try_parse<int>("42x") == 42`. -/
theorem C3_try_parse (s p u : View) (h : LongestLiteral s p)
    (hu : ∀ q t, u = q ++ t → isIntLiteral q = false) :
    try_parse s = (if inIntRange (literalValue p) then some (literalValue p) else none) ∧
    try_parse u = none ∧
    try_parse ("42".toList) = some 42 ∧
    try_parse ("42x".toList) = some 42 := by
  refine ⟨?_, ?_, by decide, by decide⟩
  · unfold try_parse
    rw [from_chars_longest s p h]
    unfold from_chars_outcome
    split <;> simp
  · unfold try_parse
    rw [from_chars_no_literal u hu]
    simp

/-- The instance of C3 (amended) at the views `"-17;"`, with literal `"-17"`, and
`"x42"`. -/
theorem C3_try_parse_witness :
    LongestLiteral ("-17;".toList) ("-17".toList) ∧
    (∀ q t, "x42".toList = q ++ t → isIntLiteral q = false) ∧
    (try_parse ("-17;".toList)
      = (if inIntRange (literalValue ("-17".toList)) then some (literalValue ("-17".toList))
          else none) ∧
    try_parse ("x42".toList) = none ∧
    try_parse ("42".toList) = some 42 ∧
    try_parse ("42x".toList) = some 42) :=
  have h1 : LongestLiteral ("-17;".toList) ("-17".toList) :=
    longestLiteral_of_stop ("-17".toList) (";".toList) (by decide) (by decide)
  have h2 : ∀ q t, "x42".toList = q ++ t → isIntLiteral q = false := by
    intro q t hqt
    cases q with
    | nil => rfl
    | cons c q =>
      have hc : c = 'x' := (List.cons.inj hqt).1.symm
      subst hc
      simp [isIntLiteral]
  ⟨h1, h2, C3_try_parse _ _ _ h1 h2⟩

/-- The claim C4 fails as stated: the prefix `"9"` of `"99999999999"` is a valid in-range
integer literal, yet `try_consume_as<int>` returns no value on this view. -/
theorem C4_counterexample :
    isIntLiteral ("9".toList) = true ∧ inIntRange (literalValue ("9".toList)) ∧
    "9".toList ++ "9999999999".toList = "99999999999".toList ∧
    try_consume_as ("99999999999".toList) = (none, "99999999999".toList) := by
  decide

/-- C4, amended. For a view `s` whose longest integer literal at the start is `p`:
when the number `p` denotes fits `int`, `try_consume_as<int>` returns it and the caller's
view becomes the rest `r` of `s`, with `p ++ r = s`; when it does not fit, the result is
absent and the view is unchanged.  For a view `u` no prefix of which is a literal the
result is absent and the view is unchanged.  On `"42x"` it yields 42 and leaves `"x"`. -/
theorem C4_try_consume_as (s p u : View) (h : LongestLiteral s p)
    (hu : ∀ q t, u = q ++ t → isIntLiteral q = false) :
    (inIntRange (literalValue p) →
      try_consume_as s = (some (literalValue p), s.drop p.length) ∧
      p ++ s.drop p.length = s) ∧
    (¬ inIntRange (literalValue p) → try_consume_as s = (none, s)) ∧
    try_consume_as u = (none, u) ∧
    try_consume_as ("42x".toList) = (some 42, "x".toList) := by
  refine ⟨?_, ?_, ?_, by decide⟩
  · intro hr
    rw [try_consume_as_longest s p h, if_pos hr]
    refine ⟨rfl, ?_⟩
    obtain ⟨_, ⟨r, hs⟩, _⟩ := h
    rw [hs, List.drop_left]
  · intro hr
    rw [try_consume_as_longest s p h, if_neg hr]
  · unfold try_consume_as
    rw [from_chars_no_literal u hu]
    simp

/-- The instance of C4 (amended) at the views `"-17;"`, with literal `"-17"`, and
`"+5"`. -/
theorem C4_try_consume_as_witness :
    LongestLiteral ("-17;".toList) ("-17".toList) ∧
    (∀ q t, "+5".toList = q ++ t → isIntLiteral q = false) ∧
    ((inIntRange (literalValue ("-17".toList)) →
      try_consume_as ("-17;".toList)
        = (some (literalValue ("-17".toList)), ("-17;".toList).drop ("-17".toList).length) ∧
      "-17".toList ++ ("-17;".toList).drop ("-17".toList).length = "-17;".toList) ∧
    (¬ inIntRange (literalValue ("-17".toList)) →
      try_consume_as ("-17;".toList) = (none, "-17;".toList)) ∧
    try_consume_as ("+5".toList) = (none, "+5".toList) ∧
    try_consume_as ("42x".toList) = (some 42, "x".toList)) :=
  have h1 : LongestLiteral ("-17;".toList) ("-17".toList) :=
    longestLiteral_of_stop ("-17".toList) (";".toList) (by decide) (by decide)
  have h2 : ∀ q t, "+5".toList = q ++ t → isIntLiteral q = false := by
    intro q t hqt
    cases q with
    | nil => rfl
    | cons c q =>
      have hc : c = '+' := (List.cons.inj hqt).1.symm
      subst hc
      simp [isIntLiteral]
  ⟨h1, h2, C4_try_consume_as _ _ _ h1 h2⟩

/-! ## `left`, `right` and `consume_left` -/

theorem left_eq (v : View) (n : Nat) : left v n = .ok (v.take n) := by
  unfold left
  split
  · rw [List.take_of_length_le (by omega)]
  · rw [substr_of_le v n (Nat.zero_le _), List.drop_zero]

theorem right_eq (v : View) (n : Nat) (hv : v.length ≤ max_size) :
    right v n = .ok (v.drop (v.length - n)) := by
  have hmax : v.length < 2 ^ 63 := by unfold max_size at hv; omega
  unfold right
  simp only
  split
  · rw [Nat.sub_eq_zero_of_le (by omega), List.drop_zero]
  · rw [wsub_of_le (by omega) (by omega), substr_of_le v n (by omega)]
    congr 1
    apply List.take_of_length_le
    rw [List.length_drop]
    omega

/-- C19. For a view `v` and any `n`, neither `left(v, n)` nor `right(v, n)` fails:
`left` returns the whole view when `n ≥ size` and otherwise the prefix of length `n`,
`right` returns the whole view when `n ≥ size` and otherwise the suffix of length `n`; and
for `n ≤ size`, `left(v, size - n) ++ right(v, n) == v`. -/
theorem C19_left_right (v : View) (n : Nat) (hv : v.length ≤ max_size) :
    (∃ l : View, left v n = .ok l ∧ (n ≥ v.length → l = v) ∧
      (n < v.length → l.length = n ∧ ∃ r, v = l ++ r)) ∧
    (∃ r : View, right v n = .ok r ∧ (n ≥ v.length → r = v) ∧
      (n < v.length → r.length = n ∧ ∃ l, v = l ++ r)) ∧
    (n ≤ v.length → ∃ l r : View,
      left v (v.length - n) = .ok l ∧ right v n = .ok r ∧ l ++ r = v) := by
  refine ⟨⟨v.take n, left_eq v n, ?_, ?_⟩, ⟨v.drop (v.length - n), right_eq v n hv, ?_, ?_⟩, ?_⟩
  · intro h
    exact List.take_of_length_le h
  · intro h
    exact ⟨by rw [List.length_take]; omega, v.drop n, (List.take_append_drop n v).symm⟩
  · intro h
    rw [Nat.sub_eq_zero_of_le h, List.drop_zero]
  · intro h
    exact ⟨by rw [List.length_drop]; omega, v.take (v.length - n),
      (List.take_append_drop _ v).symm⟩
  · intro _
    exact ⟨_, _, left_eq v _, right_eq v n hv, List.take_append_drop _ v⟩

/-- The instance of C19 at the view `"hello"` and `n = 2`. -/
theorem C19_left_right_witness :
    ("hello".toList).length ≤ max_size ∧
    ((∃ l : View, left ("hello".toList) 2 = .ok l ∧ (2 ≥ ("hello".toList).length →
        l = "hello".toList) ∧
      (2 < ("hello".toList).length → l.length = 2 ∧ ∃ r, "hello".toList = l ++ r)) ∧
    (∃ r : View, right ("hello".toList) 2 = .ok r ∧ (2 ≥ ("hello".toList).length →
        r = "hello".toList) ∧
      (2 < ("hello".toList).length → r.length = 2 ∧ ∃ l, "hello".toList = l ++ r)) ∧
    (2 ≤ ("hello".toList).length → ∃ l r : View,
      left ("hello".toList) (("hello".toList).length - 2) = .ok l ∧
      right ("hello".toList) 2 = .ok r ∧ l ++ r = "hello".toList)) :=
  ⟨by decide, C19_left_right _ _ (by decide)⟩

/-- C15. For a view `v` and any `n` (also `n = 0`, `n` greater than the size, and the
default `n = 1`), `consume_left(v, n)` returns what `left(v, n)` returns and leaves the
caller's view as the rest, so that the returned view followed by the caller's view is the
original `v`. -/
theorem C15_consume_left (v : View) (n : Nat) :
    ∃ first rest : View,
      consume_left v n = .ok (first, rest) ∧
      left v n = .ok first ∧
      first ++ rest = v ∧
      (n = 0 → first = [] ∧ rest = v) ∧
      (n ≥ v.length → first = v ∧ rest = []) ∧
      (n = 1 → first = v.head?.toList ∧ rest = v.tail) := by
  refine ⟨v.take n, v.drop n, ?_, left_eq v n, List.take_append_drop n v, ?_, ?_, ?_⟩
  · unfold consume_left
    rw [left_eq]
    simp only
    by_cases h : n ≤ v.length
    · rw [Nat.min_eq_right h]
    · rw [Nat.min_eq_left (by omega), List.drop_length, List.drop_of_length_le (by omega)]
  · intro h
    subst h
    exact ⟨rfl, rfl⟩
  · intro h
    exact ⟨List.take_of_length_le h, List.drop_of_length_le h⟩
  · intro h
    subst h
    cases v <;> simp

/-! ## `ends_with` and `contains` -/

theorem std_equal_iff (a b : View) : std_equal a b = true ↔ a = b := by
  induction a generalizing b with
  | nil => cases b <;> simp [std_equal]
  | cons x a ih => cases b <;> simp [std_equal, ih]

/-- C11, what the code does. `ends_with(str, suffix)` is true exactly when `suffix` is the
whole of `str`: the four-iterator `std::equal` compares the lengths of its two ranges.  So
`ends_with("hello", "lo")` is false although `"hello"` ends with `"lo"`. -/
theorem C11_ends_with_whole_only (str suffix : View) :
    (ends_with str suffix = true ↔ suffix = str) ∧
    ends_with ("hello".toList) ("lo".toList) = false ∧
    "hello".toList = "hel".toList ++ "lo".toList ∧
    ends_with ("hello".toList) ("he".toList) = false := by
  refine ⟨?_, by decide, by decide, by decide⟩
  unfold ends_with
  rw [Bool.and_eq_true, std_equal_iff, List.reverse_inj, decide_eq_true_iff]
  constructor
  · exact fun h => h.2
  · intro h
    rw [h]
    exact ⟨Nat.le_refl _, rfl⟩

theorem std_search_le (str what : View) : std_search str what ≤ str.length := by
  induction str with
  | nil => simp [std_search]
  | cons c rest ih =>
    unfold std_search
    split
    · omega
    · rw [List.length_cons]
      omega

theorem contains_iff (str what : View) :
    contains str what = true ↔ str ≠ [] ∧ ∃ p q, str = p ++ what ++ q := by
  induction str with
  | nil => simp [contains, std_search]
  | cons c rest ih =>
    by_cases hpre : what.isPrefixOf (c :: rest) = true
    · have h1 : contains (c :: rest) what = true := by
        simp [contains, std_search, hpre]
      obtain ⟨q, hq⟩ := List.isPrefixOf_iff_prefix.mp hpre
      simp only [h1, ne_eq, reduceCtorEq, not_false_eq_true, true_and, true_iff]
      exact ⟨[], q, by rw [List.nil_append, hq]⟩
    · have h1 : contains (c :: rest) what = contains rest what := by
        unfold contains
        rw [std_search, if_neg hpre, List.length_cons, Bool.eq_iff_iff, bne_iff_ne, bne_iff_ne]
        omega
      rw [h1, ih]
      simp only [ne_eq, reduceCtorEq, not_false_eq_true, true_and]
      constructor
      · rintro ⟨_, p, q, hpq⟩
        exact ⟨c :: p, q, by rw [hpq]; simp⟩
      · rintro ⟨p, q, hpq⟩
        cases p with
        | nil =>
          exfalso
          apply hpre
          rw [List.isPrefixOf_iff_prefix]
          exact ⟨q, by rw [hpq]; simp⟩
        | cons x p =>
          rw [List.cons_append, List.cons_append] at hpq
          have hrest : rest = p ++ what ++ q := (List.cons.inj hpq).2
          refine ⟨?_, p, q, hrest⟩
          intro hnil
          rw [hnil] at hrest
          have hw : what = [] := by
            have := congrArg List.length hrest
            simp at this
            exact List.length_eq_zero.mp (by omega)
          apply hpre
          rw [hw]
          rfl

/-- C12, what the code does. `contains(str, what)` is true exactly when `str` is not
empty and `what` occurs in it as a contiguous substring; for the empty `str` it is false
for every `what`, also for the empty `what`, which does occur in the empty `str`. -/
theorem C12_contains_nonempty_only (str what : View) :
    (contains str what = true ↔ str ≠ [] ∧ ∃ p q, str = p ++ what ++ q) ∧
    contains [] [] = false ∧
    ([] : View) = [] ++ [] ++ [] ∧
    contains ("hello".toList) [] = true := by
  exact ⟨contains_iff str what, by decide, rfl, by decide⟩

/-! ## Trim -/

theorem isMatch_pred (f : Char → Bool) : CharDelim.isMatch (.pred f) = f := by
  funext x; rfl

theorem isMatch_lit (d : Delim) : CharDelim.isMatch (.lit d) = d.isMatch := by
  funext x; rfl

theorem min_find_first_not_of (v : View) (d : CharDelim) (hv : v.length ≤ max_size) :
    min (FnTraits.find_first_not_of v d) v.length = v.findIdx (fun c => !d.isMatch c) := by
  have hmax : v.length < 2 ^ 63 := by unfold max_size at hv; omega
  cases d with
  | pred f =>
    rw [isMatch_pred]
    exact Nat.min_eq_left (List.findIdx_le_length _)
  | lit d =>
    rw [isMatch_lit]
    have hle : v.findIdx (fun c => !d.isMatch c) ≤ v.length := List.findIdx_le_length _
    simp only [FnTraits.find_first_not_of, find_first_not_of]
    split
    · omega
    · unfold npos; omega

theorem trim_left_eq (v : View) (d : CharDelim) (hv : v.length ≤ max_size) :
    trim_left v d = v.dropWhile d.isMatch := by
  rw [trim_left, min_find_first_not_of v d hv, List.dropWhile_eq_drop_findIdx_not]

theorem find_last_not_of_eq (v : View) (d : CharDelim) (hv : v.length ≤ max_size) :
    FnTraits.find_last_not_of v d
      = if v.reverse.findIdx (fun c => !d.isMatch c) < v.length
        then v.length - 1 - v.reverse.findIdx (fun c => !d.isMatch c) else npos := by
  have hmax : v.length < 2 ^ 63 := by unfold max_size at hv; omega
  cases d with
  | lit d => rfl
  | pred f =>
    rw [isMatch_pred]
    have hle : v.reverse.findIdx (fun c => !f c) ≤ v.reverse.length :=
      List.findIdx_le_length _
    rw [List.length_reverse] at hle
    simp only [FnTraits.find_last_not_of]
    split
    · rw [wsub_of_le (by omega) (by omega)]
      omega
    · have h0 : v.length - v.reverse.findIdx (fun c => !f c) = 0 := by omega
      rw [h0]
      rfl

theorem trim_right_eq (v : View) (d : CharDelim) (hv : v.length ≤ max_size) :
    trim_right v d = v.rdropWhile d.isMatch := by
  have hmax : v.length < 2 ^ 63 := by unfold max_size at hv; omega
  have hle : v.reverse.findIdx (fun c => !d.isMatch c) ≤ v.reverse.length :=
    List.findIdx_le_length _
  rw [List.length_reverse] at hle
  rw [trim_right, find_last_not_of_eq v d hv, List.rdropWhile,
    List.dropWhile_eq_drop_findIdx_not, List.drop_reverse, List.reverse_reverse]
  generalize v.reverse.findIdx (fun c => !d.isMatch c) = j at *
  by_cases hj : j < v.length
  · have hne : v.length - 1 - j ≠ npos := by unfold npos; omega
    have h1 : wsub v.length (v.length - 1 - j) = j + 1 := by
      rw [wsub_of_le (by omega) (by omega)]
      omega
    rw [if_pos hj, if_pos hne, h1, wsub_of_le (by omega) (by omega), Nat.add_sub_cancel]
  · rw [if_neg hj, if_neg (by simp)]
    have h0 : v.length - j = 0 := by omega
    rw [h0, List.take_zero]

theorem head?_dropWhile_fails (p : Char → Bool) (l : List Char) (c : Char)
    (h : (l.dropWhile p).head? = some c) : p c = false := by
  have := List.head?_dropWhile_not p l
  rw [h] at this
  exact this

theorem getLast?_rdropWhile_fails (p : Char → Bool) (l : List Char) (c : Char)
    (h : (l.rdropWhile p).getLast? = some c) : p c = false := by
  rw [List.rdropWhile, List.getLast?_reverse] at h
  exact head?_dropWhile_fails p _ c h

theorem rdropWhile_append_matched (p : Char → Bool) (l : List Char) :
    ∃ b, l = l.rdropWhile p ++ b ∧ ∀ c ∈ b, p c = true := by
  refine ⟨(l.reverse.takeWhile p).reverse, ?_, ?_⟩
  · rw [List.rdropWhile, ← List.reverse_append, List.takeWhile_append_dropWhile,
      List.reverse_reverse]
  · intro c hc
    exact List.mem_takeWhile_imp (List.mem_reverse.mp hc)

theorem dropWhile_append_matched (p : Char → Bool) (l : List Char) :
    ∃ a, l = a ++ l.dropWhile p ∧ ∀ c ∈ a, p c = true :=
  ⟨l.takeWhile p, (List.takeWhile_append_dropWhile p l).symm,
    fun _ hc => List.mem_takeWhile_imp hc⟩

theorem dropWhile_of_head?_fails (p : Char → Bool) (l : List Char)
    (h : ∀ c, l.head? = some c → p c = false) : l.dropWhile p = l := by
  cases l with
  | nil => rfl
  | cons x l =>
    have hx : p x = false := h x rfl
    rw [List.dropWhile_cons, hx]
    rfl

/-- Dropping the matched characters at both ends leaves a trimmed view. -/
theorem isTrimmed_dropWhile_rdropWhile (m : Char → Bool) (v : View) :
    IsTrimmed m v ((v.dropWhile m).rdropWhile m) := by
  obtain ⟨a, ha, hma⟩ := dropWhile_append_matched m v
  obtain ⟨b, hb, hmb⟩ := rdropWhile_append_matched m (v.dropWhile m)
  refine ⟨a, b, ?_, hma, hmb, ?_, getLast?_rdropWhile_fails m _⟩
  · rw [List.append_assoc, ← hb, ← ha]
  · intro c hc
    apply head?_dropWhile_fails m v c
    rw [hb]
    cases ht : (v.dropWhile m).rdropWhile m with
    | nil => rw [ht] at hc; simp at hc
    | cons x t =>
      rw [ht] at hc
      simpa using hc

theorem length_trim_left_le (v : View) (d : CharDelim) :
    (trim_left v d).length ≤ v.length := by
  rw [trim_left, List.length_drop]
  omega

theorem trim_lit_eq (v : View) (l : Delim) (hv : v.length ≤ max_size) :
    trim v (.lit l) = .ok ((v.dropWhile l.isMatch).rdropWhile l.isMatch) := by
  rw [trim, trim_right_eq _ _ (Nat.le_trans (length_trim_left_le v _) hv),
    trim_left_eq v _ hv, isMatch_lit]

theorem trim_pred_some_eq (v : View) (f g : Char → Bool) (hv : v.length ≤ max_size) :
    trim v (.pred f (some g)) = .ok ((v.dropWhile f).rdropWhile g) := by
  rw [trim, trim_right_eq _ _ (Nat.le_trans (length_trim_left_le v _) hv),
    trim_left_eq v _ hv, isMatch_pred, isMatch_pred]

theorem trim_pred_none_eq (v : View) (f : Char → Bool) (hv : v.length ≤ max_size) :
    trim v (.pred f none)
      = if (v.dropWhile f).isEmpty then .ok [] else .error .bad_function_call := by
  rw [trim, trim_left_eq v _ hv, isMatch_pred]

/-- A view cut at its right end out of one that does not begin with a character matched
by `f` does not begin with one either. -/
theorem dropWhile_rdropWhile_dropWhile (f g : Char → Bool) (v : View) :
    ((v.dropWhile f).rdropWhile g).dropWhile f = (v.dropWhile f).rdropWhile g := by
  obtain ⟨b, hb, _⟩ := rdropWhile_append_matched g (v.dropWhile f)
  apply dropWhile_of_head?_fails
  intro c hc
  apply head?_dropWhile_fails f v c
  rw [hb]
  cases ht : (v.dropWhile f).rdropWhile g with
  | nil => rw [ht] at hc; simp at hc
  | cons x t =>
    rw [ht] at hc
    simpa using hc

theorem length_rdropWhile_dropWhile_le (f g : Char → Bool) (v : View) :
    ((v.dropWhile f).rdropWhile g).length ≤ v.length := by
  obtain ⟨b, hb, _⟩ := rdropWhile_append_matched g (v.dropWhile f)
  have h1 := congrArg List.length hb
  rw [List.length_append] at h1
  have h2 : (v.dropWhile f).length ≤ v.length := (List.dropWhile_suffix f).length_le
  omega

/-- Where `trim` returns, what it returns is left unchanged by `trim`. -/
theorem trim_trim (v : View) (d : ByValueDelim) (hv : v.length ≤ max_size) (t : View)
    (h : trim v d = .ok t) : trim t d = .ok t := by
  cases d with
  | lit l =>
    rw [trim_lit_eq v l hv] at h
    cases h
    rw [trim_lit_eq _ l (Nat.le_trans (length_rdropWhile_dropWhile_le _ _ v) hv),
      dropWhile_rdropWhile_dropWhile, List.rdropWhile_idempotent]
  | pred f moved =>
    cases moved with
    | some g =>
      rw [trim_pred_some_eq v f g hv] at h
      cases h
      rw [trim_pred_some_eq _ f g (Nat.le_trans (length_rdropWhile_dropWhile_le _ _ v) hv),
        dropWhile_rdropWhile_dropWhile, List.rdropWhile_idempotent]
    | none =>
      rw [trim_pred_none_eq v f hv] at h
      split at h
      · cases h
        rfl
      · cases h

/-- C13, what the code does. For a view `v`: `trim_left(v, d)` and `trim_right(v, d)` are
`v` without its maximal prefix, respectively suffix, of matched characters, for a
character, a character set and a predicate alike.  `trim(v, d)` is `v` without both for a
character or a character set `l` and for a predicate `f` that a move leaves unchanged
(a view of matched characters only is trimmed to the empty view).  For a predicate that
the move inside `trim` changes into `g`, the right end is trimmed with `g` and not with
`f`; for a predicate that cannot be called after the move, `trim` throws unless every
character of `v` is matched.  So `trim("xxhixx", p)`, `p` a `std::function` testing for
`'x'`, throws instead of returning `"hi"`, and with a lambda whose moved-from state
matches nothing it returns `"hixx"`. -/
theorem C13_trim (v : View) (d : CharDelim) (l : Delim) (f g : Char → Bool)
    (hv : v.length ≤ max_size) :
    (∃ a : View, v = a ++ trim_left v d ∧ (∀ c ∈ a, d.isMatch c = true) ∧
      (∀ c, (trim_left v d).head? = some c → d.isMatch c = false)) ∧
    (∃ b : View, v = trim_right v d ++ b ∧ (∀ c ∈ b, d.isMatch c = true) ∧
      (∀ c, (trim_right v d).getLast? = some c → d.isMatch c = false)) ∧
    (∃ t : View, trim v (.lit l) = .ok t ∧ IsTrimmed l.isMatch v t ∧
      ((∀ c ∈ v, l.isMatch c = true) → t = [])) ∧
    (∃ t : View, trim v (.pred f (some f)) = .ok t ∧ IsTrimmed f v t ∧
      ((∀ c ∈ v, f c = true) → t = [])) ∧
    trim v (.pred f (some g)) = .ok ((v.dropWhile f).rdropWhile g) ∧
    ((∀ c ∈ v, f c = true) → trim v (.pred f none) = .ok []) ∧
    ((∃ c ∈ v, f c = false) → trim v (.pred f none) = .error .bad_function_call) ∧
    trim ("xxhixx".toList) (.pred (fun c => c == 'x') none) = .error .bad_function_call ∧
    trim ("xxhixx".toList) (.pred (fun c => c == 'x') (some (fun _ => false)))
      = .ok ("hixx".toList) := by
  refine ⟨?_, ?_, ?_, ?_, trim_pred_some_eq v f g hv, ?_, ?_, by rfl, by rfl⟩
  · obtain ⟨a, ha, hma⟩ := dropWhile_append_matched d.isMatch v
    rw [trim_left_eq v d hv]
    exact ⟨a, ha, hma, head?_dropWhile_fails d.isMatch v⟩
  · obtain ⟨b, hb, hmb⟩ := rdropWhile_append_matched d.isMatch v
    rw [trim_right_eq v d hv]
    exact ⟨b, hb, hmb, getLast?_rdropWhile_fails d.isMatch v⟩
  · refine ⟨_, trim_lit_eq v l hv, isTrimmed_dropWhile_rdropWhile _ v, ?_⟩
    intro hall
    rw [List.dropWhile_eq_nil_iff.mpr hall, List.rdropWhile_nil]
  · refine ⟨_, trim_pred_some_eq v f f hv, isTrimmed_dropWhile_rdropWhile _ v, ?_⟩
    intro hall
    rw [List.dropWhile_eq_nil_iff.mpr hall, List.rdropWhile_nil]
  · intro hall
    rw [trim_pred_none_eq v f hv, List.dropWhile_eq_nil_iff.mpr hall]
    rfl
  · rintro ⟨c, hc, hfc⟩
    rw [trim_pred_none_eq v f hv]
    have hne : v.dropWhile f ≠ [] := by
      intro hnil
      have := List.dropWhile_eq_nil_iff.mp hnil c hc
      rw [hfc] at this
      exact Bool.noConfusion this
    cases hw : v.dropWhile f with
    | nil => exact absurd hw hne
    | cons x w => rfl

/-- The instance of C13 at the view `"  ab c "`, the delimiter `' '` and the predicates
"is `' '`" and "is `'c'`". -/
theorem C13_trim_witness :
    ("  ab c ".toList).length ≤ max_size ∧
    ((∃ a : View, "  ab c ".toList = a ++ trim_left ("  ab c ".toList) (.lit (.chr ' ')) ∧
      (∀ c ∈ a, (CharDelim.lit (.chr ' ')).isMatch c = true) ∧
      (∀ c, (trim_left ("  ab c ".toList) (.lit (.chr ' '))).head? = some c →
        (CharDelim.lit (.chr ' ')).isMatch c = false)) ∧
    (∃ b : View, "  ab c ".toList = trim_right ("  ab c ".toList) (.lit (.chr ' ')) ++ b ∧
      (∀ c ∈ b, (CharDelim.lit (.chr ' ')).isMatch c = true) ∧
      (∀ c, (trim_right ("  ab c ".toList) (.lit (.chr ' '))).getLast? = some c →
        (CharDelim.lit (.chr ' ')).isMatch c = false)) ∧
    (∃ t : View, trim ("  ab c ".toList) (.lit (.chr ' ')) = .ok t ∧
      IsTrimmed (Delim.chr ' ').isMatch ("  ab c ".toList) t ∧
      ((∀ c ∈ "  ab c ".toList, (Delim.chr ' ').isMatch c = true) → t = [])) ∧
    (∃ t : View,
      trim ("  ab c ".toList) (.pred (fun c => c == ' ') (some (fun c => c == ' '))) = .ok t ∧
      IsTrimmed (fun c => c == ' ') ("  ab c ".toList) t ∧
      ((∀ c ∈ "  ab c ".toList, (fun c => c == ' ') c = true) → t = [])) ∧
    trim ("  ab c ".toList) (.pred (fun c => c == ' ') (some (fun c => c == 'c')))
      = .ok ((("  ab c ".toList).dropWhile (fun c => c == ' ')).rdropWhile
          (fun c => c == 'c')) ∧
    ((∀ c ∈ "  ab c ".toList, (fun c => c == ' ') c = true) →
      trim ("  ab c ".toList) (.pred (fun c => c == ' ') none) = .ok []) ∧
    ((∃ c ∈ "  ab c ".toList, (fun c => c == ' ') c = false) →
      trim ("  ab c ".toList) (.pred (fun c => c == ' ') none)
        = .error .bad_function_call) ∧
    trim ("xxhixx".toList) (.pred (fun c => c == 'x') none) = .error .bad_function_call ∧
    trim ("xxhixx".toList) (.pred (fun c => c == 'x') (some (fun _ => false)))
      = .ok ("hixx".toList)) :=
  ⟨by decide, C13_trim _ _ _ _ _ (by decide)⟩

/-- C14, what the code does. Wherever `trim(v, d)` returns, it returns a view that `trim`
with the same delimiter leaves unchanged; it always returns for a character or a
character set `l` and for a predicate `f` that a move leaves unchanged, so that
`trim(trim(v, d), d) == trim(v, d)` for these.  For a predicate that cannot be called
after the move inside `trim`, `trim(v, d)` itself throws as soon as `v` holds a character
that is not matched: `trim(trim("xxhixx", p), p)`, `p` a `std::function` testing for
`'x'`, throws. -/
theorem C14_trim_idempotent (v : View) (d : ByValueDelim) (l : Delim) (f : Char → Bool)
    (hv : v.length ≤ max_size) :
    (∀ t : View, trim v d = .ok t → trim t d = .ok t) ∧
    (∃ t : View, trim v (.lit l) = .ok t ∧ trim t (.lit l) = .ok t) ∧
    (∃ t : View, trim v (.pred f (some f)) = .ok t ∧ trim t (.pred f (some f)) = .ok t) ∧
    ((∃ c ∈ v, f c = false) → trim v (.pred f none) = .error .bad_function_call) ∧
    trim ("xxhixx".toList) (.pred (fun c => c == 'x') none) = .error .bad_function_call := by
  refine ⟨trim_trim v d hv, ?_, ?_, ?_, by rfl⟩
  · exact ⟨_, trim_lit_eq v l hv, trim_trim v _ hv _ (trim_lit_eq v l hv)⟩
  · exact ⟨_, trim_pred_some_eq v f f hv, trim_trim v _ hv _ (trim_pred_some_eq v f f hv)⟩
  · rintro ⟨c, hc, hfc⟩
    rw [trim_pred_none_eq v f hv]
    cases hw : v.dropWhile f with
    | nil =>
      have := List.dropWhile_eq_nil_iff.mp hw c hc
      rw [hfc] at this
      exact Bool.noConfusion this
    | cons x w => rfl

/-- The instance of C14 at the view `"xxhixx"`, the delimiter `'x'` and the predicate
"is `'x'`". -/
theorem C14_trim_idempotent_witness :
    ("xxhixx".toList).length ≤ max_size ∧
    ((∀ t : View, trim ("xxhixx".toList) (.lit (.chr 'x')) = .ok t →
      trim t (.lit (.chr 'x')) = .ok t) ∧
    (∃ t : View, trim ("xxhixx".toList) (.lit (.chr 'x')) = .ok t ∧
      trim t (.lit (.chr 'x')) = .ok t) ∧
    (∃ t : View,
      trim ("xxhixx".toList) (.pred (fun c => c == 'x') (some (fun c => c == 'x'))) = .ok t ∧
      trim t (.pred (fun c => c == 'x') (some (fun c => c == 'x'))) = .ok t) ∧
    ((∃ c ∈ "xxhixx".toList, (fun c => c == 'x') c = false) →
      trim ("xxhixx".toList) (.pred (fun c => c == 'x') none) = .error .bad_function_call) ∧
    trim ("xxhixx".toList) (.pred (fun c => c == 'x') none) = .error .bad_function_call) :=
  ⟨by decide, C14_trim_idempotent _ _ _ _ (by decide)⟩

/-! ## Span -/

theorem not_not_fun (f : Char → Bool) : (fun a => !(fun c => !f c) a) = f := by
  funext a
  simp

theorem span_excluding_eq (v : View) (d : CharDelim) (hv : v.length ≤ max_size) :
    span_excluding v d = .ok (v.takeWhile (fun c => !d.isMatch c)) := by
  have hmax : v.length < 2 ^ 63 := by unfold max_size at hv; omega
  rw [span_excluding, substr_of_le v _ (Nat.zero_le _), List.drop_zero,
    List.takeWhile_eq_take_findIdx_not, not_not_fun]
  congr 1
  cases d with
  | pred f => rfl
  | lit d =>
    rw [isMatch_lit]
    simp only [FnTraits.find_first_of, find_first_of, List.drop_zero, Nat.zero_add]
    split
    · rfl
    · rw [List.take_of_length_le (by unfold npos; omega), List.take_of_length_le (by omega)]

theorem span_including_eq (v : View) (d : CharDelim) (hv : v.length ≤ max_size) :
    span_including v d = .ok (v.takeWhile d.isMatch) := by
  rw [span_including, substr_of_le v _ (Nat.zero_le _), List.takeWhile_eq_take_findIdx_not,
    ← min_find_first_not_of v d hv]
  congr 1
  have := take_min_drop v 0 (FnTraits.find_first_not_of v d)
  rw [List.drop_zero, Nat.sub_zero] at this
  rw [List.drop_zero, this]

/-- The longest prefix of a list whose elements all satisfy `q`. -/
theorem takeWhile_spec (q : Char → Bool) (l : List Char) :
    ∃ rest, l = l.takeWhile q ++ rest ∧ (∀ c ∈ l.takeWhile q, q c = true) ∧
      (∀ c, rest.head? = some c → q c = false) ∧
      ((∀ c ∈ l, q c = true) → l.takeWhile q = l) :=
  ⟨l.dropWhile q, (List.takeWhile_append_dropWhile q l).symm,
    fun _ hc => List.mem_takeWhile_imp hc, head?_dropWhile_fails q l,
    fun h => List.takeWhile_eq_self_iff.mpr h⟩

/-- C20. For a view `v` and a delimiter `d` that is a character, a character set or a
character predicate: `span_excluding(v, d)` is the maximal prefix of `v` with no matched
character (all of `v` when nothing is matched), `span_including(v, d)` is the maximal
prefix of `v` with matched characters only (all of `v` when everything is matched), and a
predicate `f` that is membership in a set `cs` gives the same views as the set `cs`. -/
theorem C20_span (v : View) (d : CharDelim) (cs : View) (f : Char → Bool)
    (hv : v.length ≤ max_size) (hf : ∀ c, f c = true ↔ c ∈ cs) :
    (∃ s rest : View, span_excluding v d = .ok s ∧ v = s ++ rest ∧
      (∀ c ∈ s, d.isMatch c = false) ∧ (∀ c, rest.head? = some c → d.isMatch c = true) ∧
      ((∀ c ∈ v, d.isMatch c = false) → s = v)) ∧
    (∃ s rest : View, span_including v d = .ok s ∧ v = s ++ rest ∧
      (∀ c ∈ s, d.isMatch c = true) ∧ (∀ c, rest.head? = some c → d.isMatch c = false) ∧
      ((∀ c ∈ v, d.isMatch c = true) → s = v)) ∧
    span_excluding v (.pred f) = span_excluding v (.lit (.set cs)) ∧
    span_including v (.pred f) = span_including v (.lit (.set cs)) := by
  have hfun : CharDelim.isMatch (.pred f) = CharDelim.isMatch (.lit (.set cs)) := by
    funext c
    show f c = cs.contains c
    rw [Bool.eq_iff_iff, hf c]
    simp
  refine ⟨?_, ?_, ?_, ?_⟩
  · obtain ⟨rest, hsplit, hall, hhead, hwhole⟩ := takeWhile_spec (fun c => !d.isMatch c) v
    refine ⟨_, rest, span_excluding_eq v d hv, hsplit, ?_, ?_, ?_⟩
    · intro c hc
      simpa using hall c hc
    · intro c hc
      simpa using hhead c hc
    · intro h
      exact hwhole (fun c hc => by simp [h c hc])
  · obtain ⟨rest, hsplit, hall, hhead, hwhole⟩ := takeWhile_spec d.isMatch v
    exact ⟨_, rest, span_including_eq v d hv, hsplit, hall, hhead, hwhole⟩
  · rw [span_excluding_eq v _ hv, span_excluding_eq v _ hv, hfun]
  · rw [span_including_eq v _ hv, span_including_eq v _ hv, hfun]

/-- The instance of C20 at the view `"ab, c"`, the delimiter `','`, the set `", "` and
the predicate "belongs to `", "`". -/
theorem C20_span_witness :
    ("ab, c".toList).length ≤ max_size ∧
    (∀ c, (fun x => decide (x ∈ ", ".toList)) c = true ↔ c ∈ ", ".toList) ∧
    ((∃ s rest : View, span_excluding ("ab, c".toList) (.lit (.chr ',')) = .ok s ∧
      "ab, c".toList = s ++ rest ∧
      (∀ c ∈ s, (CharDelim.lit (.chr ',')).isMatch c = false) ∧
      (∀ c, rest.head? = some c → (CharDelim.lit (.chr ',')).isMatch c = true) ∧
      ((∀ c ∈ "ab, c".toList, (CharDelim.lit (.chr ',')).isMatch c = false) →
        s = "ab, c".toList)) ∧
    (∃ s rest : View, span_including ("ab, c".toList) (.lit (.chr ',')) = .ok s ∧
      "ab, c".toList = s ++ rest ∧
      (∀ c ∈ s, (CharDelim.lit (.chr ',')).isMatch c = true) ∧
      (∀ c, rest.head? = some c → (CharDelim.lit (.chr ',')).isMatch c = false) ∧
      ((∀ c ∈ "ab, c".toList, (CharDelim.lit (.chr ',')).isMatch c = true) →
        s = "ab, c".toList)) ∧
    span_excluding ("ab, c".toList) (.pred (fun x => decide (x ∈ ", ".toList)))
      = span_excluding ("ab, c".toList) (.lit (.set (", ".toList))) ∧
    span_including ("ab, c".toList) (.pred (fun x => decide (x ∈ ", ".toList)))
      = span_including ("ab, c".toList) (.lit (.set (", ".toList)))) :=
  have hf : ∀ c, (fun x => decide (x ∈ ", ".toList)) c = true ↔ c ∈ ", ".toList :=
    fun _ => decide_eq_true_iff
  ⟨by decide, hf, C20_span _ _ _ _ (by decide) hf⟩

/-! ## `consume` -/

theorem less_ci_nil_left (b : View) : less_ci [] b = decide (0 < b.length) := by
  cases b <;> rfl

theorem less_ci_nil_right (a : View) : less_ci a [] = false := by
  cases a <;> rfl

theorem less_ci_cons_eq (x y : Char) (a b : View)
    (h : x.toLower.toNat = y.toLower.toNat) : less_ci (x :: a) (y :: b) = less_ci a b := by
  simp only [less_ci, List.length_cons, Nat.add_min_add_right, Nat.one_mul, _memicmp, h,
    if_true, Nat.add_lt_add_iff_right]

theorem less_ci_cons_ne (x y : Char) (a b : View)
    (h : x.toLower.toNat ≠ y.toLower.toNat) :
    less_ci (x :: a) (y :: b) = decide (x.toLower.toNat < y.toLower.toNat) := by
  have hne : (x.toLower.toNat : Int) - (y.toLower.toNat : Int) ≠ 0 := by omega
  simp only [less_ci, List.length_cons, Nat.add_min_add_right, Nat.one_mul, _memicmp, h,
    if_false, hne]
  rw [decide_eq_decide]
  omega

theorem lex_cons_of_ne {m n : Nat} (l1 l2 : List Nat) (h : m ≠ n) :
    List.Lex (fun m n : Nat => m < n) (m :: l1) (n :: l2) ↔ m < n := by
  constructor
  · intro hl
    cases hl with
    | cons _ => exact absurd rfl h
    | rel hr => exact hr
  · exact List.Lex.rel

/-- The comparator is the lexicographic order of the lower-cased byte values. -/
theorem less_ci_iff_lex (a b : View) :
    less_ci a b = true ↔ List.Lex (fun m n : Nat => m < n) (ciKey a) (ciKey b) := by
  induction a generalizing b with
  | nil =>
    rw [less_ci_nil_left]
    cases b with
    | nil =>
      simp only [List.length_nil, Nat.lt_irrefl, decide_False, Bool.false_eq_true, false_iff]
      exact List.Lex.not_nil_right _ _
    | cons y b =>
      simp only [List.length_cons, Nat.zero_lt_succ, decide_True, true_iff]
      exact List.Lex.nil
  | cons x a ih =>
    cases b with
    | nil =>
      rw [less_ci_nil_right]
      simp only [Bool.false_eq_true, false_iff]
      exact List.Lex.not_nil_right _ _
    | cons y b =>
      by_cases h : x.toLower.toNat = y.toLower.toNat
      · rw [less_ci_cons_eq x y a b h, ih b]
        simp only [ciKey, List.map_cons, h]
        exact List.Lex.cons_iff.symm
      · rw [less_ci_cons_ne x y a b h, decide_eq_true_iff]
        simp only [ciKey, List.map_cons]
        exact (lex_cons_of_ne _ _ h).symm

theorem lex_lt_trans : ∀ {a b c : List Nat}, List.Lex (fun m n : Nat => m < n) a b →
    List.Lex (fun m n : Nat => m < n) b c → List.Lex (fun m n : Nat => m < n) a c
  | _, _, _, .nil, .cons _ => .nil
  | _, _, _, .nil, .rel _ => .nil
  | _, _, _, .cons h1, .cons h2 => .cons (lex_lt_trans h1 h2)
  | _, _, _, .cons _, .rel r => .rel r
  | _, _, _, .rel r, .cons _ => .rel r
  | _, _, _, .rel r1, .rel r2 => .rel (Nat.lt_trans r1 r2)

theorem lex_lt_irrefl : ∀ (a : List Nat), ¬ List.Lex (fun m n : Nat => m < n) a a
  | _ :: _, .cons h => lex_lt_irrefl _ h
  | _ :: _, .rel r => Nat.lt_irrefl _ r

theorem lex_lt_trichotomy : ∀ (a b : List Nat),
    List.Lex (fun m n : Nat => m < n) a b ∨ a = b ∨ List.Lex (fun m n : Nat => m < n) b a
  | [], [] => Or.inr (Or.inl rfl)
  | [], _ :: _ => Or.inl .nil
  | _ :: _, [] => Or.inr (Or.inr .nil)
  | x :: a, y :: b => by
    rcases Nat.lt_trichotomy x y with h | h | h
    · exact Or.inl (.rel h)
    · subst h
      rcases lex_lt_trichotomy a b with h1 | h1 | h1
      · exact Or.inl (.cons h1)
      · exact Or.inr (Or.inl (by rw [h1]))
      · exact Or.inr (Or.inr (.cons h1))
    · exact Or.inr (Or.inr (.rel h))

/-- C18. The view/view overload of `less_ci` is a strict weak ordering on views: it is
irreflexive, asymmetric and transitive, and its incomparability relation is transitive.
Its result is the same for operands that differ only in ASCII case, that is, whose
lower-cased bytes agree; `less("ABC","abc") == false` and `less("abc","ABD") == true`. -/
theorem C18_less_ci_strict_weak_order :
    (∀ a : View, less_ci a a = false) ∧
    (∀ a b : View, less_ci a b = true → less_ci b a = false) ∧
    (∀ a b c : View, less_ci a b = true → less_ci b c = true → less_ci a c = true) ∧
    (∀ a b c : View, less_ci a b = false ∧ less_ci b a = false →
      less_ci b c = false ∧ less_ci c b = false →
      less_ci a c = false ∧ less_ci c a = false) ∧
    (∀ a a1 b b1 : View, ciKey a = ciKey a1 → ciKey b = ciKey b1 →
      less_ci a b = less_ci a1 b1) ∧
    less_ci ("ABC".toList) ("abc".toList) = false ∧
    less_ci ("abc".toList) ("ABD".toList) = true ∧
    less_ci ("ABC".toList) ("abd".toList) = true := by
  have hfalse : ∀ a b : View, less_ci a b = false ↔
      ¬ List.Lex (fun m n : Nat => m < n) (ciKey a) (ciKey b) := by
    intro a b
    rw [← less_ci_iff_lex, Bool.not_eq_true]
  have hkey : ∀ a b : View, less_ci a b = false ∧ less_ci b a = false → ciKey a = ciKey b := by
    intro a b ⟨h1, h2⟩
    rcases lex_lt_trichotomy (ciKey a) (ciKey b) with h | h | h
    · exact absurd h ((hfalse a b).mp h1)
    · exact h
    · exact absurd h ((hfalse b a).mp h2)
  refine ⟨?_, ?_, ?_, ?_, ?_, by decide, by decide, by decide⟩
  · intro a
    exact (hfalse a a).mpr (lex_lt_irrefl _)
  · intro a b hab
    rw [hfalse]
    intro hba
    exact lex_lt_irrefl _ (lex_lt_trans ((less_ci_iff_lex a b).mp hab) hba)
  · intro a b c hab hbc
    exact (less_ci_iff_lex a c).mpr
      (lex_lt_trans ((less_ci_iff_lex a b).mp hab) ((less_ci_iff_lex b c).mp hbc))
  · intro a b c hab hbc
    have hac : ciKey a = ciKey c := (hkey a b hab).trans (hkey b c hbc)
    constructor
    · rw [hfalse, hac]
      exact lex_lt_irrefl _
    · rw [hfalse, hac]
      exact lex_lt_irrefl _
  · intro a a1 b b1 ha hb
    rw [Bool.eq_iff_iff, less_ci_iff_lex, less_ci_iff_lex, ha, hb]

end svlib
